import Mathlib

/-!
Verification development for the vibotron repository.

The definitions below are shallow embeddings of the TypeScript source:
  * the batched parallel task executor
    (src/generateSyntheticUserPromptResponses.ts lines 203-253; the same
    loop appears in generateSyntheticUserPrompts and in
    evaluateSyntheticUserPromptResponses),
  * the permutation engine (processRulesAndFlavors and its helpers),
  * the correction-artifact parser and the failure counters,
  * the iterative improvement controller loop.

Machine strings are modelled by Lean String; JavaScript stable
Array.prototype.sort is modelled by a stable insertion sort; the
localeCompare comparator is modelled by code-point lexicographic order
(every comparison performed in a theorem of this file first differs at a
digit-versus-digit position, where every locale collation agrees with
code-point order).
-/

namespace Vibotron

/-! ## Batched task executor

Source: generateSyntheticUserPromptResponses.ts lines 203-253.  Each unit
of work settles either as a fulfilled promise with value true (success),
a fulfilled promise with value false (logical failure), or a rejected
promise (thrown fault).  The loop slices the task list into consecutive
batches of size `parallelism`, awaits the whole batch, accumulates the
number of successes, and aborts when the batch contains a logical failure
or a fault. -/

/-- Outcome with which one unit of work settles: fulfilled with true,
fulfilled with false, or rejected. -/
inductive TaskOutcome where
  | success : TaskOutcome
  | failure : TaskOutcome
  | fault : TaskOutcome
deriving DecidableEq, Repr

/-- Predicate for result.status fulfilled with value true. -/
def isSuccess : TaskOutcome → Bool
  | .success => true
  | _ => false

/-- Predicate for result.status fulfilled with value false. -/
def isFailure : TaskOutcome → Bool
  | .failure => true
  | _ => false

/-- Predicate for result.status rejected. -/
def isFault : TaskOutcome → Bool
  | .fault => true
  | _ => false

/-- Count of fulfilled-true results in a batch (batchSuccess in the source). -/
def batchSuccessCount (batch : List TaskOutcome) : Nat :=
  (batch.filter isSuccess).length

/-- Count of fulfilled-false results in a batch (batchFailed in the source). -/
def batchFailedCount (batch : List TaskOutcome) : Nat :=
  (batch.filter isFailure).length

/-- Count of rejected results in a batch (batchRejected in the source). -/
def batchRejectedCount (batch : List TaskOutcome) : Nat :=
  (batch.filter isFault).length

/-- Fuel-indexed slicing of a task list into consecutive batches of size k,
mirroring the loop header: for i = 0, k, 2k, ... the batch is
allTasks.slice(i, i + k).  The fuel argument only forces structural
termination; it is set to the list length in toBatches. -/
def toBatchesAux (k : Nat) : Nat → List α → List (List α)
  | _, [] => []
  | 0, _ :: _ => []
  | fuel + 1, a :: l => (a :: l).take k :: toBatchesAux k fuel ((a :: l).drop k)

/-- Consecutive batches of size k (the last batch may be smaller). -/
def toBatches (k : Nat) (l : List α) : List (List α) :=
  toBatchesAux k l.length l

/-- Body of the executor loop over the batch list.  Returns the final
totalGenerated counter, the number of units that were started
(processedSoFar at an abort), and the reported boolean. -/
def runBatchesGo : List (List TaskOutcome) → Nat × Nat × Bool
  | [] => (0, 0, true)
  | batch :: rest =>
    if 0 < batchFailedCount batch ∨ 0 < batchRejectedCount batch then
      (batchSuccessCount batch, batch.length, false)
    else
      let r := runBatchesGo rest
      (batchSuccessCount batch + r.1, batch.length + r.2.1, r.2.2)

/-- The batched executor: slice into batches of size k and run them
sequentially with the fail-fast policy of the source loop. -/
def runBatches (k : Nat) (outcomes : List TaskOutcome) : Nat × Nat × Bool :=
  runBatchesGo (toBatches k outcomes)

/-! ## String helpers

Executable models of the JavaScript string operations used by the source.
All of them work on String.data so that every definition reduces inside
the kernel. -/

/-- Whitespace class of the JavaScript regular expression escape \s and of
String.prototype.trim, restricted to the ASCII range (the sources and the
theorems of this file use only ASCII whitespace). -/
def isJsSpace (c : Char) : Bool :=
  c = ' ' || c = '\t' || c = '\n' || c = '\r' || c = '\x0b' || c = '\x0c'

/-- Does the character list start with the given pattern. -/
def listStartsWith (cs pat : List Char) : Bool :=
  cs.take pat.length == pat

/-- Does the character list end with the given pattern. -/
def listEndsWith (cs pat : List Char) : Bool :=
  decide (pat.length ≤ cs.length) && cs.drop (cs.length - pat.length) == pat

/-- String.prototype.startsWith. -/
def strStartsWith (s pat : String) : Bool :=
  listStartsWith s.data pat.data

/-- String.prototype.endsWith, used by the .txt directory filters. -/
def strEndsWith (s pat : String) : Bool :=
  listEndsWith s.data pat.data

/-- Case-insensitive prefix test, for the /i regular expression flag. -/
def listStartsWithCI (cs pat : List Char) : Bool :=
  (cs.take pat.length).map Char.toLower == pat

/-- Strip ASCII whitespace from both ends, modelling String.prototype.trim. -/
def trimChars (cs : List Char) : List Char :=
  ((cs.dropWhile isJsSpace).reverse.dropWhile isJsSpace).reverse

/-- String-level trim. -/
def trimStr (s : String) : String :=
  ⟨trimChars s.data⟩

/-- ASCII lower-casing of a string, for toLowerCase comparisons. -/
def lowerStr (s : String) : String :=
  ⟨s.data.map Char.toLower⟩

/-- Split a character list at newline characters; models
String.prototype.split("\n"). -/
def splitLinesChars : List Char → List (List Char)
  | [] => [[]]
  | c :: rest =>
    let r := splitLinesChars rest
    if c = '\n' then [] :: r
    else
      match r with
      | [] => [[c]]
      | h :: t => (c :: h) :: t

/-- Line list of a string. -/
def splitLines (s : String) : List String :=
  (splitLinesChars s.data).map String.mk

/-- Array.prototype.join with a separator. -/
def strJoin (sep : String) : List String → String
  | [] => ""
  | [x] => x
  | x :: y :: rest => x ++ sep ++ strJoin sep (y :: rest)

/-- Lexicographic code-point order (strict) on character lists. -/
def lexLtChars : List Char → List Char → Bool
  | [], [] => false
  | [], _ :: _ => true
  | _ :: _, [] => false
  | a :: as, b :: bs =>
    if a < b then true
    else if b < a then false
    else lexLtChars as bs

/-- Lexicographic code-point order (non-strict) on character lists. -/
def lexLeChars : List Char → List Char → Bool
  | [], _ => true
  | _ :: _, [] => false
  | a :: as, b :: bs =>
    if a < b then true
    else if b < a then false
    else lexLeChars as bs

/-- Model of the comparator (a, b) => a.localeCompare(b) as a non-strict
order: code-point lexicographic order.  Every comparison appearing in a
theorem of this file first differs at a digit-versus-digit position, where
all locale collations agree with code-point order. -/
def localeLe (a b : String) : Bool :=
  lexLeChars a.data b.data

/-- Stable insertion of an element into a sorted list: the element goes in
front of the first list member it compares less-or-equal to. -/
def insertSorted (le : α → α → Bool) (a : α) : List α → List α
  | [] => [a]
  | b :: l => if le a b then a :: b :: l else b :: insertSorted le a l

/-- Model of JavaScript stable Array.prototype.sort with an ascending
comparator: a stable insertion sort. -/
def sortByJs (le : α → α → Bool) (l : List α) : List α :=
  l.foldr (insertSorted le) []

/-- Decimal digit run to number, modelling parseInt on an all-digit
string. -/
def digitsToNat (cs : List Char) : Nat :=
  cs.foldl (fun n c => 10 * n + (c.toNat - 48)) 0

/-- Model of the POSIX path.join(dir, name) for a plain directory and file
name (no normalization is involved for the paths this program builds). -/
def joinPath (dir name : String) : String :=
  dir ++ "/" ++ name

/-- Node path.basename(p, ".txt"): the part after the last slash, with a
trailing ".txt" removed unless the whole basename is exactly ".txt". -/
def lastSegment (cs : List Char) : List Char :=
  cs.foldl (fun acc c => if c = '/' then [] else acc ++ [c]) []

/-- Remove the extension from a basename, per path.basename semantics. -/
def dropExtTxt (cs : List Char) : List Char :=
  if cs ≠ ".txt".data ∧ listEndsWith cs ".txt".data then
    cs.take (cs.length - 4)
  else cs

/-- basename(p, ".txt") on strings. -/
def basenameTxt (p : String) : String :=
  ⟨dropExtTxt (lastSegment p.data)⟩

/-! ## Permutation engine data model

Source: the rules-and-flavors processor (part of the repository grouped as
src/unnamed/part_004).  RuleData and FlavorLevel are its two interfaces;
the level field of RuleData is only populated when a flavor is placed into
a combination. -/

/-- One text unit: a rule variant or a flavor variant. -/
structure RuleData where
  content : String
  source : String
  level : Option Nat := none
deriving DecidableEq, Repr

/-- One flavor dimension: an integer level and its flavor documents. -/
structure FlavorLevel where
  level : Nat
  flavors : List RuleData
deriving DecidableEq, Repr

/-- Comparator used on flavor levels: (a, b) => a.level - b.level. -/
def levelLe (a b : FlavorLevel) : Bool :=
  decide (a.level ≤ b.level)

/-- Inner loop body of generateFlavorCombinations: cross the running
combination set with one level, appending each flavor tagged with its
level. -/
def flavorComboStep (combos : List (List RuleData)) (lvl : FlavorLevel) : List (List RuleData) :=
  combos.flatMap (fun combination =>
    lvl.flavors.map (fun flavor =>
      combination ++ [{ flavor with level := some lvl.level }]))

/-- generateFlavorCombinations: cartesian product of the flavor levels in
ascending level order; an empty input (and a product annihilated by an
empty level) yields the single empty combination. -/
def generateFlavorCombinations (flavorLevels : List FlavorLevel) : List (List RuleData) :=
  if flavorLevels = [] then [[]]
  else
    let sortedLevels := sortByJs levelLe flavorLevels
    let combinations := sortedLevels.foldl flavorComboStep [[]]
    if combinations = [] then [[]] else combinations

/-- Decimal digits of a number, most significant first; the fuel argument
only forces structural termination and is set large enough in natToStr. -/
def natToStrAux : Nat → Nat → List Char
  | 0, _ => []
  | fuel + 1, n =>
    if n < 10 then [Char.ofNat (48 + n)]
    else natToStrAux fuel (n / 10) ++ [Char.ofNat (48 + n % 10)]

/-- Decimal rendering of a number, as a template literal prints it. -/
def natToStr (n : Nat) : String :=
  ⟨natToStrAux (n + 1) n⟩

/-- Rendering of the template fragment L-dollar-f.level: a missing level
field prints as undefined, exactly as the template literal would. -/
def levelToString : Option Nat → String
  | some n => natToStr n
  | none => "undefined"

/-- The rule list actually iterated: the rules when present, otherwise one
synthetic base rule with empty content and source "none". -/
def rulesToProcess (rules : List RuleData) : List RuleData :=
  if rules.length > 0 then rules else [{ content := "", source := "none" }]

/-- Filename token contributed by one selected flavor. -/
def flavorToken (f : RuleData) : String :=
  "L" ++ levelToString f.level ++ "_" ++ basenameTxt f.source

/-- Rule part of the output filename: the source basename, or the
synthetic name base for the stand-in rule. -/
def ruleBaseName (rule : RuleData) : String :=
  if rule.source ≠ "none" then basenameTxt rule.source else "base"

/-- Permutation output filename, built exactly as in the source:
ruleBasename, then an underscore-joined flavor suffix, then ".txt". -/
def permutationFilename (rule : RuleData) (flavorCombo : List RuleData) : String :=
  let flavorSuffix :=
    if flavorCombo.length > 0 then
      "_" ++ strJoin "_" (flavorCombo.map flavorToken)
    else ""
  ruleBaseName rule ++ flavorSuffix ++ ".txt"

/-- Claim-side filename formula, modelled from the specification wording:
the rule basename (or base), then for each selected flavor in order the
token L-level-underscore-basename, all joined by underscores, with the
.txt extension. -/
def specFilename (rule : RuleData) (flavorCombo : List RuleData) : String :=
  strJoin "_" (ruleBaseName rule :: flavorCombo.map flavorToken) ++ ".txt"

/-- Model of JavaScript Array.prototype.filter(Boolean) on an array of
strings and nulls: nulls and empty strings are dropped. -/
def jsFilterBoolean (parts : List (Option String)) : List String :=
  (parts.filterMap id).filter (fun s => !(s == ""))

/-- Provenance comment block of one permutation document.  The source
appends a final empty string to the array, but filter(Boolean) drops it
again, so no trailing newline survives. -/
def permutationSources (commonRules rule : RuleData) (flavorCombo : List RuleData)
    (now : String) : String :=
  strJoin "\n" (jsFilterBoolean (
    [some "// Generated permutation:",
     some ("// Common rules: " ++ commonRules.source),
     if rule.source ≠ "none" then some ("// Rule: " ++ rule.source) else none]
    ++ flavorCombo.map (fun flavor =>
         some ("// Flavor L" ++ levelToString flavor.level ++ ": " ++ flavor.source))
    ++ [some ("// Generated at: " ++ now), some ""]))

/-- Body of one permutation document: provenance block, then the rule
variant (when real), then each selected flavor, joined by blank lines and
explicitly excluding the common rules.  filter(Boolean) also drops parts
whose content is the empty string. -/
def permutationContent (commonRules rule : RuleData) (flavorCombo : List RuleData)
    (now : String) : String :=
  strJoin "\n\n" (jsFilterBoolean (
    [some (permutationSources commonRules rule flavorCombo now),
     if rule.source ≠ "none" then some ("// Rule from: " ++ rule.source) else none,
     if rule.source ≠ "none" then some rule.content else none]
    ++ flavorCombo.flatMap (fun flavor =>
         [some ("// Flavor L" ++ levelToString flavor.level ++ " from: " ++ flavor.source),
          some flavor.content])))

/-- generateRulesPermutations as a pure function: the list of
(filename, content) writes performed into the permutations directory, in
write order.  Its length is the permutationCount counter of the source. -/
def generateRulesPermutations (commonRules : RuleData) (rules : List RuleData)
    (flavorLevels : List FlavorLevel) (now : String) : List (String × String) :=
  (rulesToProcess rules).flatMap (fun rule =>
    (generateFlavorCombinations flavorLevels).map (fun flavorCombo =>
      (permutationFilename rule flavorCombo,
       permutationContent commonRules rule flavorCombo now)))

/-! ## Filename-encoding analysis helpers

The filename of a permutation underscore-joins its tokens; these helpers
expose that encoding as a join over character lists with an explicit
splitting inverse, and project a combination to the level-and-basename
skeleton the filename encodes. -/

/-- Underscore-joined rendering of a list of character lists; the data of
strJoin with separator underscore. -/
def joinU : List (List Char) → List Char
  | [] => []
  | [t] => t
  | t :: u :: rest => t ++ '_' :: joinU (u :: rest)

/-- Split a character list at every underscore; the inverse of joinU on
underscore-free tokens. -/
def splitU : List Char → List (List Char)
  | [] => [[]]
  | c :: rest =>
    match splitU rest with
    | [] => [[]]
    | t :: ts => if c = '_' then [] :: t :: ts else (c :: t) :: ts

/-- Level-and-basename skeleton of a flavor combination: exactly the data
the output filename encodes for each selected flavor. -/
def comboKey (c : List RuleData) : List (Option Nat × String) :=
  c.map (fun f => (f.level, basenameTxt f.source))

/-- The fine token list (as character lists) a filename decomposes into:
the rule basename, then per selected flavor the level token and the
flavor basename. -/
def fineTokens (rb : String) (k : List (Option Nat × String)) : List (List Char) :=
  rb.data :: k.flatMap (fun e => [('L' :: (levelToString e.1).data), e.2.data])

/-- Provenance header of the aggregate rules document.  Here the source
does not apply filter(Boolean), so the trailing empty string survives and
produces a trailing newline. -/
def rulesAllSources (commonRules : RuleData) (rules : List RuleData)
    (flavorLevels : List FlavorLevel) (now : String) : String :=
  strJoin "\n" (
    ["// Generated from:", "// Common rules: " ++ commonRules.source]
    ++ rules.map (fun rule => "// Rule: " ++ rule.source)
    ++ flavorLevels.flatMap (fun level =>
         level.flavors.map (fun flavor =>
           "// Flavor L" ++ natToStr level.level ++ ": " ++ flavor.source))
    ++ ["// Generated at: " ++ now, ""])

/-- Parts of the aggregate rules document, in the order the source
concatenates them: header, common rules, rule variants, then the flavor
variants of each level in the order the flavor levels were read. -/
def rulesAllParts (commonRules : RuleData) (rules : List RuleData)
    (flavorLevels : List FlavorLevel) (now : String) : List String :=
  [rulesAllSources commonRules rules flavorLevels now,
   "// Common rules from: " ++ commonRules.source,
   commonRules.content]
  ++ rules.flatMap (fun rule => ["// Rule from: " ++ rule.source, rule.content])
  ++ flavorLevels.flatMap (fun level =>
       level.flavors.flatMap (fun flavor =>
         ["// Flavor L" ++ natToStr level.level ++ " from: " ++ flavor.source,
          flavor.content]))

/-- generateRulesAllFile as a pure function producing the aggregate
document content. -/
def generateRulesAllFile (commonRules : RuleData) (rules : List RuleData)
    (flavorLevels : List FlavorLevel) (now : String) : String :=
  strJoin "\n\n" (rulesAllParts commonRules rules flavorLevels now)

/-! ## Filesystem and configuration model

The filesystem is an association list of file paths to raw contents
(a none content models a file that exists but cannot be read) together
with an association list of directory paths to their readdirSync name
listings.  The configuration carries the key/value pairs of config.input
plus the two output paths the permutation engine uses; a JavaScript
falsy path (absent key or empty string) is modelled as none. -/

/-- Filesystem state. -/
structure FS where
  files : List (String × Option String)
  dirs : List (String × List String)
deriving DecidableEq, Repr

/-- Permutation engine configuration surface. -/
structure Config where
  input : Option (List (String × String))
  rules_all_file : Option String
  rules_permutations_directory : Option String
deriving DecidableEq, Repr

/-- Truthiness of an optional configured path: the empty string is falsy. -/
def truthy : Option String → Option String
  | none => none
  | some s => if s = "" then none else some s

/-- Raw file lookup (readFileSync); none when the path does not exist or
exists but cannot be read. -/
def rawFile (fs : FS) (p : String) : Option String :=
  (fs.files.find? (fun e => e.1 == p)).bind (fun e => e.2)

/-- existsSync on a file path. -/
def existsFile (fs : FS) (p : String) : Bool :=
  ((fs.files.find? (fun e => e.1 == p)).isSome : Bool)

/-- existsSync on a directory path. -/
def existsDir (fs : FS) (p : String) : Bool :=
  ((fs.dirs.find? (fun e => e.1 == p)).isSome : Bool)

/-- existsSync: true for a file or a directory. -/
def existsPath (fs : FS) (p : String) : Bool :=
  existsFile fs p || existsDir fs p

/-- readdirSync listing of a directory path (empty when missing, matching
the caught-and-logged error paths of the source). -/
def readdir (fs : FS) (p : String) : List String :=
  ((fs.dirs.find? (fun e => e.1 == p)).map (fun e => e.2)).getD []

/-- Comment filtering of readTextFile in fileUtils.ts: lines whose trimmed
form starts with a double slash are dropped and the rest re-joined. -/
def stripComments (s : String) : String :=
  strJoin "\n" ((splitLines s).filter (fun line => !(strStartsWith (trimStr line) "//")))

/-- readTextFile: read and comment-strip, null on any failure. -/
def readTextFile (fs : FS) (p : String) : Option String :=
  (rawFile fs p).map stripComments

/-- Write a file (writeTextFile); the model write always succeeds. -/
def writeFile (fs : FS) (p : String) (content : String) : FS :=
  { fs with files := (fs.files.filter (fun e => !(e.1 == p))) ++ [(p, some content)] }

/-- unlinkSync on a file path (a directory at that path is untouched,
matching the caught exception in the source). -/
def unlinkFile (fs : FS) (p : String) : FS :=
  { fs with files := fs.files.filter (fun e => !(e.1 == p)) }

/-- rmSync with recursive and force: removes the path as file and as
directory, and everything below it. -/
def removeTree (fs : FS) (p : String) : FS :=
  { files := fs.files.filter (fun e => !(e.1 == p) && !(strStartsWith e.1 (p ++ "/"))),
    dirs := fs.dirs.filter (fun e => !(e.1 == p) && !(strStartsWith e.1 (p ++ "/"))) }

/-- mkdirSync with recursive (only the directory entry itself is added;
the permutation engine never lists intermediate directories). -/
def mkdir (fs : FS) (p : String) : FS :=
  { fs with dirs := fs.dirs ++ [(p, [])] }

/-- Lookup of a key inside config.input. -/
def configInputGet (cfg : Config) (key : String) : Option String :=
  cfg.input.bind (fun input => (input.find? (fun e => e.1 == key)).map (fun e => e.2))

/-- clearOldFiles: delete the old aggregate file, then recursively remove
the old permutations directory, when each is configured and present. -/
def clearOldFiles (cfg : Config) (fs : FS) : FS :=
  let fs₁ :=
    match truthy cfg.rules_all_file with
    | some p => if existsPath fs p then unlinkFile fs p else fs
    | none => fs
  match truthy cfg.rules_permutations_directory with
  | some p => if existsPath fs₁ p then removeTree fs₁ p else fs₁
  | none => fs₁

/-- readCommonRules: the required common-rules document, none on a missing
configuration key, a missing file, or a failed read. -/
def readCommonRules (cfg : Config) (fs : FS) : Option RuleData :=
  match truthy (configInputGet cfg "rules_common_file") with
  | none => none
  | some filePath =>
    if existsPath fs filePath then
      match readTextFile fs filePath with
      | none => none
      | some content => some { content := content, source := filePath }
    else none

/-- Read all .txt documents of a directory listing into RuleData, in
readdirSync order, skipping unreadable files. -/
def readDocsOfDir (fs : FS) (dir : String) : List RuleData :=
  ((readdir fs dir).filter (fun file => strEndsWith file ".txt")).filterMap
    (fun file =>
      (readTextFile fs (joinPath dir file)).map
        (fun content => { content := content, source := joinPath dir file }))

/-- readRulesDirectory: optional rule variants; empty when the directory
key is falsy or the directory is missing. -/
def readRulesDirectory (cfg : Config) (fs : FS) : List RuleData :=
  match truthy (configInputGet cfg "rules_directory") with
  | none => []
  | some rulesDir =>
    if existsPath fs rulesDir then readDocsOfDir fs rulesDir else []

/-- readFlavorDirectory: one flavor level directory, empty when missing. -/
def readFlavorDirectory (fs : FS) (flavorDir : String) : List RuleData :=
  if existsPath fs flavorDir then readDocsOfDir fs flavorDir else []

/-- Key recognizer for the pattern flavors_level_(digits)_directory,
returning the parseInt value of the digit run. -/
def parseFlavorKey (k : String) : Option Nat :=
  let cs := k.data
  let pre := "flavors_level_".data
  let suf := "_directory".data
  if listStartsWith cs pre && listEndsWith cs suf then
    let mid := (cs.drop pre.length).take (cs.length - pre.length - suf.length)
    if !(mid == []) && mid.all Char.isDigit then some (digitsToNat mid) else none
  else none

/-- The flavor keys of the input configuration: regex-filtered and sorted
with the localeCompare comparator. -/
def flavorLevelKeys (input : List (String × String)) : List String :=
  sortByJs localeLe ((input.map (fun e => e.1)).filter (fun k => (parseFlavorKey k).isSome))

/-- Flavor keys of a configuration (empty when config.input is absent). -/
def flavorKeysOf (cfg : Config) : List String :=
  match cfg.input with
  | none => []
  | some input => flavorLevelKeys input

/-- Loop body of readFlavorLevels for one flavor key: parse the level,
look the directory up, read it, and drop a level that yields no
documents. -/
def readFlavorLevelOf (cfg : Config) (fs : FS) (key : String) : Option FlavorLevel :=
  match parseFlavorKey key, configInputGet cfg key with
  | some level, some flavorDir =>
    let flavors := readFlavorDirectory fs flavorDir
    if flavors.length > 0 then some { level := level, flavors := flavors } else none
  | _, _ => none

/-- readFlavorLevels: for each flavor key in comparator order, read its
directory; levels that yield no documents are dropped entirely. -/
def readFlavorLevels (cfg : Config) (fs : FS) : List FlavorLevel :=
  (flavorKeysOf cfg).filterMap (readFlavorLevelOf cfg fs)

/-- Document count a flavor key contributes before the empty-level filter. -/
def flavorDocCount (cfg : Config) (fs : FS) (key : String) : Nat :=
  match parseFlavorKey key, configInputGet cfg key with
  | some _, some flavorDir => (readFlavorDirectory fs flavorDir).length
  | _, _ => 0

/-- Factor a document count contributes to the permutation-count formula:
an empty level is skipped (factor one), never multiplied in as zero. -/
def skipZero (n : Nat) : Nat :=
  if n = 0 then 1 else n

/-- processRulesAndFlavors: clear old outputs, read the required common
rules (failure aborts, after the clearing), read the optional rules and
flavors, then write the aggregate file and every permutation document. -/
def processRulesAndFlavors (cfg : Config) (fs : FS) (now : String) : FS × Bool :=
  let fs₀ := clearOldFiles cfg fs
  match readCommonRules cfg fs₀ with
  | none => (fs₀, false)
  | some commonRules =>
    let rules := readRulesDirectory cfg fs₀
    let flavorLevels := readFlavorLevels cfg fs₀
    let fs₁ :=
      match truthy cfg.rules_all_file with
      | none => fs₀
      | some outputPath =>
        writeFile fs₀ outputPath (generateRulesAllFile commonRules rules flavorLevels now)
    match truthy cfg.rules_permutations_directory with
    | none => (fs₁, true)
    | some outputDir =>
      let fs₂ := if !(existsPath fs₁ outputDir) then mkdir fs₁ outputDir else fs₁
      ((generateRulesPermutations commonRules rules flavorLevels now).foldl
        (fun f w => writeFile f (joinPath outputDir w.1) w.2) fs₂, true)

/-- The permutation writes a successful run performs (empty when the run
fails or the permutations directory is not configured). -/
def processPermutationWrites (cfg : Config) (fs : FS) (now : String) : List (String × String) :=
  let fs₀ := clearOldFiles cfg fs
  match readCommonRules cfg fs₀, truthy cfg.rules_permutations_directory with
  | some commonRules, some _ =>
    generateRulesPermutations commonRules (readRulesDirectory cfg fs₀)
      (readFlavorLevels cfg fs₀) now
  | _, _ => []

/-! ## Correction artifact parsing and failure counting

Source: generateTargetSystemPrompt (the configLoader variant, grouped in
src/unnamed/part_000 lines 266-334) and the two counters of
src/src/iterativeImprovement.ts lines 399-438. -/

/-- Match of the regular expression EVALUATION colon, whitespace run,
FAIL, case-insensitively, anchored at the start of the list.  The
whitespace run is forced maximal because the F of FAIL is not
whitespace. -/
def matchEvalFailAt (cs : List Char) : Bool :=
  listStartsWithCI cs "evaluation:".data &&
    listStartsWithCI ((cs.drop 11).dropWhile isJsSpace) "fail".data

/-- Unanchored search for the EVALUATION FAIL pattern. -/
def containsEvalFailChars : List Char → Bool
  | [] => false
  | c :: rest => matchEvalFailAt (c :: rest) || containsEvalFailChars rest

/-- Does the content match /EVALUATION:\s*FAIL/i. -/
def containsEvalFail (content : String) : Bool :=
  containsEvalFailChars content.data

/-- Match of /EVALUATION:\s*(PASS|FAIL)/i anchored at the start. -/
def matchEvalMarkerAt (cs : List Char) : Bool :=
  listStartsWithCI cs "evaluation:".data &&
    (listStartsWithCI ((cs.drop 11).dropWhile isJsSpace) "pass".data ||
     listStartsWithCI ((cs.drop 11).dropWhile isJsSpace) "fail".data)

/-- Unanchored search for an EVALUATION marker (PASS or FAIL). -/
def containsEvalMarkerChars : List Char → Bool
  | [] => false
  | c :: rest => matchEvalMarkerAt (c :: rest) || containsEvalMarkerChars rest

/-- Does the content carry any EVALUATION verdict marker. -/
def containsEvalMarker (content : String) : Bool :=
  containsEvalMarkerChars content.data

/-- Leftmost-match search of /CORRECTIONS:\s*(.+)/is, returning the part
after the marker.  A marker occurrence with nothing after it cannot
satisfy the one-or-more quantifier, so the scan continues past it. -/
def correctionsTail : List Char → Option (List Char)
  | [] => none
  | c :: rest =>
    if listStartsWithCI (c :: rest) "corrections:".data then
      let tail := (c :: rest).drop 12
      if tail == [] then correctionsTail rest else some tail
    else correctionsTail rest

/-- Capture group of /CORRECTIONS:\s*(.+)/is on the nonempty tail after
the marker: the maximal-whitespace run is given back one character when
everything after the marker is whitespace. -/
def correctionCapture (tail : List Char) : List Char :=
  let afterWs := tail.dropWhile isJsSpace
  if afterWs == [] then tail.drop (tail.length - 1) else afterWs

/-- The correction text the source extracts from a FAIL artifact: the
trimmed capture group, none when the regular expression does not match. -/
def extractCorrectionText (content : String) : Option String :=
  (correctionsTail content.data).map (fun tail => ⟨trimChars (correctionCapture tail)⟩)

/-- Specification-side characterization of a match of the FAIL pattern:
the content decomposes into a prefix, an EVALUATION: marker
(case-insensitive), a whitespace run, and a tail beginning with FAIL
(case-insensitive). -/
def evalFailSpec (content : String) : Prop :=
  ∃ pre mid ws post, content.data = pre ++ mid ++ ws ++ post
    ∧ mid.map Char.toLower = "evaluation:".data
    ∧ (∀ c ∈ ws, isJsSpace c = true)
    ∧ (post.take 4).map Char.toLower = "fail".data

/-- Claim-side extraction, modelled from the specification wording:
everything after the first CORRECTIONS: marker to end of file, trimmed
(defined for comparison with the source behaviour; the two differ when
the marker is the last thing in the file). -/
def claimExtractCorrectionGo : List Char → Option (List Char)
  | [] => none
  | c :: rest =>
    if listStartsWithCI (c :: rest) "corrections:".data then
      some ((c :: rest).drop 12)
    else claimExtractCorrectionGo rest

/-- Claim-side correction text: trimmed tail of the first marker. -/
def claimExtractCorrection (content : String) : Option String :=
  (claimExtractCorrectionGo content.data).map (fun tail => ⟨trimChars tail⟩)

/-- Directory listing model: readdirSync names paired with the raw file
contents of the directory entries. -/
abbrev DirListing := List (String × Option String)

/-- Content of one directory entry as readTextFile returns it. -/
def readEntry (entries : DirListing) (name : String) : Option String :=
  ((entries.find? (fun e => e.1 == name)).bind (fun e => e.2)).map stripComments

/-- The sorted .txt names of a corrections directory listing. -/
def correctionFileNames (entries : DirListing) : List String :=
  sortByJs localeLe ((entries.map (fun e => e.1)).filter (fun f => strEndsWith f ".txt"))

/-- Loop-body predicate of countEvaluationFailures: a readable content
matching the FAIL pattern counts, an unreadable file does not. -/
def evalFailOfRead (content? : Option String) : Bool :=
  match content? with
  | some content => containsEvalFail content
  | none => false

/-- countEvaluationFailures of iterativeImprovement.ts: number of sorted
.txt artifacts whose readable content matches EVALUATION FAIL; a missing
directory counts zero. -/
def countEvaluationFailures (dir : Option DirListing) : Nat :=
  match dir with
  | none => 0
  | some entries =>
    ((correctionFileNames entries).map (readEntry entries)).countP evalFailOfRead

/-- countTotalEvaluations: the number of .txt names, with no content
check; a missing directory counts zero. -/
def countTotalEvaluations (dir : Option DirListing) : Nat :=
  match dir with
  | none => 0
  | some entries =>
    ((entries.map (fun e => e.1)).filter (fun f => strEndsWith f ".txt")).length

/-- Actionable corrections collected by generateTargetSystemPrompt: for
each sorted readable .txt artifact with a FAIL verdict and a matching
CORRECTIONS capture, the trimmed text, unless it equals none needed
case-insensitively. -/
def collectCorrections (entries : DirListing) : List String :=
  (correctionFileNames entries).filterMap (fun file =>
    match readEntry entries file with
    | none => none
    | some content =>
      if containsEvalFail content then
        match extractCorrectionText content with
        | some text => if !(lowerStr text == "none needed") then some text else none
        | none => none
      else none)

/-- The aggregated corrections block handed to the regeneration prompt. -/
def correctionsContent (entries : DirListing) : String :=
  strJoin "\n\n" (collectCorrections entries)

/-! ## Iterative improvement controller

Source: the loop of runIterativeImprovement
(src/src/iterativeImprovement.ts lines 333-390), modelled after the
prerequisite steps have succeeded.  Pass i is described by the corrections
directory state it produces: none when the evaluation step itself fails,
otherwise the optional directory listing the failure counter reads. -/

/-- Observable counters of one controller run. -/
structure LoopTrace where
  evalPasses : Nat
  regenPasses : Nat
  success : Bool
deriving DecidableEq, Repr

/-- The while loop of runIterativeImprovement.  corrections i is the
corrections directory after evaluation pass i (none: the evaluation step
reported failure); regenOk i tells whether the regeneration after pass i
succeeds. -/
def iterLoop (corrections : Nat → Option (Option DirListing)) (regenOk : Nat → Bool)
    (maxIterations currentIteration : Nat) : LoopTrace :=
  if currentIteration < maxIterations then
    let cur := currentIteration + 1
    match corrections cur with
    | none => { evalPasses := 1, regenPasses := 0, success := false }
    | some dir =>
      if countEvaluationFailures dir = 0 then
        { evalPasses := 1, regenPasses := 0, success := true }
      else if maxIterations ≤ cur then
        { evalPasses := 1, regenPasses := 0, success := true }
      else if regenOk cur then
        let t := iterLoop corrections regenOk maxIterations cur
        { evalPasses := t.evalPasses + 1, regenPasses := t.regenPasses + 1,
          success := t.success }
      else { evalPasses := 1, regenPasses := 1, success := false }
  else { evalPasses := 0, regenPasses := 0, success := true }
termination_by maxIterations - currentIteration

end Vibotron

namespace Vibotron

/-! ## Executor lemmas -/

theorem toBatchesAux_congr {k : Nat} (hk : 1 ≤ k) :
    ∀ {fuel₁ fuel₂ : Nat} {l : List α}, l.length ≤ fuel₁ → l.length ≤ fuel₂ →
      toBatchesAux k fuel₁ l = toBatchesAux k fuel₂ l := by
  intro fuel₁
  induction fuel₁ with
  | zero =>
    intro fuel₂ l h₁ _
    have : l = [] := List.length_eq_zero.mp (Nat.le_zero.mp h₁)
    subst this
    cases fuel₂ <;> rfl
  | succ f ih =>
    intro fuel₂ l h₁ h₂
    cases l with
    | nil => cases fuel₂ <;> rfl
    | cons a t =>
      cases fuel₂ with
      | zero => exact absurd h₂ (by simp)
      | succ g =>
        simp only [toBatchesAux]
        congr 1
        have hlen : ((a :: t).drop k).length ≤ t.length := by
          simp only [List.length_drop, List.length_cons]
          omega
        exact ih (Nat.le_trans hlen (Nat.le_of_succ_le_succ h₁))
          (Nat.le_trans hlen (Nat.le_of_succ_le_succ h₂))

theorem toBatches_nil (k : Nat) : toBatches k ([] : List α) = [] := rfl

theorem toBatches_cons {k : Nat} (hk : 1 ≤ k) (a : α) (l : List α) :
    toBatches k (a :: l) = (a :: l).take k :: toBatches k ((a :: l).drop k) := by
  simp only [toBatches, List.length_cons, toBatchesAux]
  congr 1
  exact toBatchesAux_congr hk (by simp [List.length_drop]; omega) (Nat.le_refl _)

/-- Batch induction principle: a property holds of every list if it holds
of the empty list and is preserved by removing the first batch. -/
theorem batchInduction {k : Nat} (hk : 1 ≤ k) {P : List α → Prop}
    (hnil : P []) (hstep : ∀ a l, P ((a :: l).drop k) → P (a :: l)) :
    ∀ l, P l := by
  have main : ∀ n (l : List α), l.length ≤ n → P l := by
    intro n
    induction n with
    | zero =>
      intro l h
      have : l = [] := List.length_eq_zero.mp (Nat.le_zero.mp h)
      simpa [this] using hnil
    | succ n ih =>
      intro l h
      cases l with
      | nil => exact hnil
      | cons a t =>
        apply hstep
        apply ih
        simp only [List.length_drop, List.length_cons]
        simp only [List.length_cons] at h
        omega
  exact fun l => main l.length l (Nat.le_refl _)

theorem toBatches_flatten {k : Nat} (hk : 1 ≤ k) (l : List α) :
    (toBatches k l).flatten = l := by
  induction l using batchInduction hk with
  | hnil => rfl
  | hstep a t ih =>
    rw [toBatches_cons hk]
    simp only [List.flatten_cons, ih]
    exact List.take_append_drop k (a :: t)

theorem ceilDiv_step {k n : Nat} (hk : 1 ≤ k) (hn : 1 ≤ n) :
    (n + k - 1) / k = (n - k + k - 1) / k + 1 := by
  rcases le_or_lt n k with hle | hgt
  · have h₀ : n - k = 0 := by omega
    rw [h₀, show n + k - 1 = (n - 1) + k by omega, Nat.add_div_right _ (by omega),
      Nat.div_eq_of_lt (by omega : n - 1 < k),
      show 0 + k - 1 = k - 1 by omega, Nat.div_eq_of_lt (by omega : k - 1 < k)]
  · rw [show n + k - 1 = (n - 1) + k by omega, Nat.add_div_right _ (by omega),
      show n - k + k - 1 = n - 1 by omega]

theorem toBatches_length {k : Nat} (hk : 1 ≤ k) (l : List α) :
    (toBatches k l).length = (l.length + k - 1) / k := by
  induction l using batchInduction hk with
  | hnil => simp [toBatches_nil, Nat.div_eq_of_lt (by omega : k - 1 < k)]
  | hstep a t ih =>
    rw [toBatches_cons hk, List.length_cons, ih, List.length_drop, List.length_cons,
      ceilDiv_step hk (by omega : 1 ≤ t.length + 1)]

theorem toBatches_size_le {k : Nat} (hk : 1 ≤ k) (l : List α) :
    ∀ b ∈ toBatches k l, b.length ≤ k := by
  induction l using batchInduction hk with
  | hnil => intro b hb; simp [toBatches_nil] at hb
  | hstep a t ih =>
    rw [toBatches_cons hk]
    intro b hb
    rcases List.mem_cons.mp hb with h | h
    · subst h; simp [List.length_take]
    · exact ih b h

theorem toBatches_dropLast_size {k : Nat} (hk : 1 ≤ k) (l : List α) :
    ∀ b ∈ (toBatches k l).dropLast, b.length = k := by
  induction l using batchInduction hk with
  | hnil => intro b hb; simp [toBatches_nil] at hb
  | hstep a t ih =>
    rw [toBatches_cons hk]
    intro b hb
    cases hrest : toBatches k ((a :: t).drop k) with
    | nil => rw [hrest] at hb; simp at hb
    | cons c cs =>
      rw [hrest, List.dropLast_cons₂] at hb
      rcases List.mem_cons.mp hb with h | h
      · subst h
        have hne : (a :: t).drop k ≠ [] := by
          intro hcontra
          rw [hcontra, toBatches_nil] at hrest
          exact List.noConfusion hrest
        have hlen : k ≤ t.length + 1 := by
          by_contra hlt
          exact hne (List.drop_eq_nil_of_le (by simp only [List.length_cons]; omega))
        simp only [List.length_take, List.length_cons]
        omega
      · rw [← hrest] at h
        exact ih b h

theorem isSuccess_iff (o : TaskOutcome) : isSuccess o = true ↔ o = TaskOutcome.success := by
  cases o <;> simp [isSuccess]

theorem isFailure_iff (o : TaskOutcome) : isFailure o = true ↔ o = TaskOutcome.failure := by
  cases o <;> simp [isFailure]

theorem isFault_iff (o : TaskOutcome) : isFault o = true ↔ o = TaskOutcome.fault := by
  cases o <;> simp [isFault]

theorem batchSuccessCount_all (batch : List TaskOutcome)
    (h : ∀ o ∈ batch, o = TaskOutcome.success) :
    batchSuccessCount batch = batch.length := by
  unfold batchSuccessCount
  have : batch.filter isSuccess = batch := by
    apply List.filter_eq_self.mpr
    intro o ho
    rw [h o ho]
    rfl
  rw [this]

theorem abortCond_iff (batch : List TaskOutcome) :
    (0 < batchFailedCount batch ∨ 0 < batchRejectedCount batch) ↔
      ∃ o ∈ batch, o = TaskOutcome.failure ∨ o = TaskOutcome.fault := by
  simp only [batchFailedCount, batchRejectedCount, List.length_pos_iff_exists_mem,
    List.mem_filter, isFailure_iff, isFault_iff]
  constructor
  · rintro (⟨o, ho, rfl⟩ | ⟨o, ho, rfl⟩)
    · exact ⟨_, ho, Or.inl rfl⟩
    · exact ⟨_, ho, Or.inr rfl⟩
  · rintro ⟨o, ho, rfl | rfl⟩
    · exact Or.inl ⟨_, ho, rfl⟩
    · exact Or.inr ⟨_, ho, rfl⟩

theorem runBatchesGo_all_success (B : List (List TaskOutcome))
    (h : ∀ batch ∈ B, ∀ o ∈ batch, o = TaskOutcome.success) :
    runBatchesGo B = ((B.map List.length).sum, (B.map List.length).sum, true) := by
  induction B with
  | nil => rfl
  | cons batch rest ih =>
    have hbatch := h batch (List.mem_cons_self _ _)
    have hcond : ¬(0 < batchFailedCount batch ∨ 0 < batchRejectedCount batch) := by
      rw [abortCond_iff]
      rintro ⟨o, ho, hcase⟩
      rcases hcase with hc | hc <;> rw [hbatch o ho] at hc <;> exact TaskOutcome.noConfusion hc
    simp only [runBatchesGo, if_neg hcond,
      ih (fun b hb o hob => h b (List.mem_cons_of_mem _ hb) o hob)]
    simp [batchSuccessCount_all batch hbatch]

theorem runBatchesGo_abort (b : Nat) :
    ∀ (B : List (List TaskOutcome)) (hb : b < B.length),
    (∀ batch ∈ B.take b, ∀ o ∈ batch, o = TaskOutcome.success) →
    (∃ o ∈ B[b], o = TaskOutcome.failure ∨ o = TaskOutcome.fault) →
    runBatchesGo B =
      (((B.take (b + 1)).map batchSuccessCount).sum,
       ((B.take (b + 1)).map List.length).sum, false) := by
  induction b with
  | zero =>
    intro B hb hpre hfail
    cases B with
    | nil => simp at hb
    | cons batch rest =>
      have hcond : 0 < batchFailedCount batch ∨ 0 < batchRejectedCount batch := by
        rw [abortCond_iff]
        simpa using hfail
      simp [runBatchesGo, if_pos hcond]
  | succ n ih =>
    intro B hb hpre hfail
    cases B with
    | nil => simp at hb
    | cons batch rest =>
      have hbatch : ∀ o ∈ batch, o = TaskOutcome.success := by
        intro o ho
        exact hpre batch (by simp [List.take_succ_cons]) o ho
      have hcond : ¬(0 < batchFailedCount batch ∨ 0 < batchRejectedCount batch) := by
        rw [abortCond_iff]
        rintro ⟨o, ho, hcase⟩
        rcases hcase with hc | hc <;> rw [hbatch o ho] at hc <;> exact TaskOutcome.noConfusion hc
      have hrest := ih rest (by simpa using hb)
        (fun batch₂ hb₂ o ho => hpre batch₂ (by simp [List.take_succ_cons, hb₂]) o ho)
        (by simpa using hfail)
      simp only [runBatchesGo, if_neg hcond, hrest]
      simp [List.take_succ_cons]

end Vibotron

namespace Vibotron

/-! ## Claim theorems for the executor -/

/-- C8: for every list of n units and concurrency k ≥ 1 where every unit
succeeds, the batched executor runs exactly ceil(n/k) sequential batches
(consecutive slices of size k, the last batch possibly smaller), attempts
every unit exactly once, and the whole operation reports success with all
n units counted as successful. -/
theorem claim_C8_batched_executor_all_success (k : Nat) (outcomes : List TaskOutcome)
    (hk : 1 ≤ k) (hall : ∀ o ∈ outcomes, o = TaskOutcome.success) :
    runBatches k outcomes = (outcomes.length, outcomes.length, true)
    ∧ (toBatches k outcomes).length = (outcomes.length + k - 1) / k
    ∧ (toBatches k outcomes).flatten = outcomes
    ∧ (∀ b ∈ toBatches k outcomes, b.length ≤ k)
    ∧ (∀ b ∈ (toBatches k outcomes).dropLast, b.length = k) := by
  have hflat := toBatches_flatten hk outcomes
  have hmem : ∀ batch ∈ toBatches k outcomes, ∀ o ∈ batch, o = TaskOutcome.success := by
    intro batch hbatch o ho
    apply hall
    rw [← hflat]
    exact List.mem_flatten.mpr ⟨batch, hbatch, ho⟩
  have hsum : ((toBatches k outcomes).map List.length).sum = outcomes.length := by
    rw [← List.length_flatten, hflat]
  refine ⟨?_, toBatches_length hk outcomes, hflat,
    toBatches_size_le hk outcomes, toBatches_dropLast_size hk outcomes⟩
  unfold runBatches
  rw [runBatchesGo_all_success _ hmem, hsum]

/-- Witness for C8 at k = 2 and three successful units. -/
theorem claim_C8_batched_executor_all_success_witness :
    (1 ≤ 2 ∧ ∀ o ∈ [TaskOutcome.success, TaskOutcome.success, TaskOutcome.success],
        o = TaskOutcome.success)
    ∧ (runBatches 2 [TaskOutcome.success, TaskOutcome.success, TaskOutcome.success]
          = (3, 3, true)
       ∧ (toBatches 2 [TaskOutcome.success, TaskOutcome.success, TaskOutcome.success]).length
          = (3 + 2 - 1) / 2
       ∧ (toBatches 2 [TaskOutcome.success, TaskOutcome.success, TaskOutcome.success]).flatten
          = [TaskOutcome.success, TaskOutcome.success, TaskOutcome.success]
       ∧ (∀ b ∈ toBatches 2 [TaskOutcome.success, TaskOutcome.success, TaskOutcome.success],
            b.length ≤ 2)
       ∧ (∀ b ∈ (toBatches 2
            [TaskOutcome.success, TaskOutcome.success, TaskOutcome.success]).dropLast,
            b.length = 2)) :=
  ⟨⟨by decide, by decide⟩,
    claim_C8_batched_executor_all_success 2
      [TaskOutcome.success, TaskOutcome.success, TaskOutcome.success]
      (by decide) (by decide)⟩

/-- C2: for every batch run, if some unit in the batch at index b settles
as a logical failure or a thrown fault while all units of the earlier
batches succeeded, then no unit of a later batch is ever started (the
units-started counter equals the total size of batches up to b), the
whole run reports failure, and the completed-units counter equals the
number of successful units in batches up to and including b. -/
theorem claim_C2_fail_fast (k : Nat) (outcomes : List TaskOutcome) (b : Nat)
    (hk : 1 ≤ k) (hb : b < (toBatches k outcomes).length)
    (hpre : ∀ batch ∈ (toBatches k outcomes).take b, ∀ o ∈ batch, o = TaskOutcome.success)
    (hfail : ∃ o ∈ (toBatches k outcomes)[b],
        o = TaskOutcome.failure ∨ o = TaskOutcome.fault) :
    runBatches k outcomes =
      ((((toBatches k outcomes).take (b + 1)).map batchSuccessCount).sum,
       (((toBatches k outcomes).take (b + 1)).map List.length).sum,
       false) :=
  runBatchesGo_abort b (toBatches k outcomes) hb hpre hfail

/-- Witness for C2: five units with concurrency 2; the second batch holds
a failure alongside a success, so the run aborts with 3 completed out of
4 started and the fifth unit never starts. -/
theorem claim_C2_fail_fast_witness :
    (1 ≤ 2
     ∧ 1 < (toBatches 2 [TaskOutcome.success, TaskOutcome.success,
          TaskOutcome.success, TaskOutcome.failure, TaskOutcome.success]).length
     ∧ (∀ batch ∈ (toBatches 2 [TaskOutcome.success, TaskOutcome.success,
          TaskOutcome.success, TaskOutcome.failure, TaskOutcome.success]).take 1,
          ∀ o ∈ batch, o = TaskOutcome.success))
    ∧ runBatches 2 [TaskOutcome.success, TaskOutcome.success,
        TaskOutcome.success, TaskOutcome.failure, TaskOutcome.success] =
      ((((toBatches 2 [TaskOutcome.success, TaskOutcome.success,
          TaskOutcome.success, TaskOutcome.failure, TaskOutcome.success]).take 2).map
            batchSuccessCount).sum,
       (((toBatches 2 [TaskOutcome.success, TaskOutcome.success,
          TaskOutcome.success, TaskOutcome.failure, TaskOutcome.success]).take 2).map
            List.length).sum,
       false) :=
  ⟨⟨by decide, by decide, by decide⟩,
    claim_C2_fail_fast 2
      [TaskOutcome.success, TaskOutcome.success, TaskOutcome.success,
        TaskOutcome.failure, TaskOutcome.success] 1
      (by decide) (by decide) (by decide) (by decide)⟩

end Vibotron

namespace Vibotron

/-! ## Sorting lemmas -/

theorem insertSorted_perm (le : α → α → Bool) (a : α) :
    ∀ l : List α, (insertSorted le a l).Perm (a :: l) := by
  intro l
  induction l with
  | nil => exact List.Perm.refl _
  | cons b t ih =>
    unfold insertSorted
    by_cases h : le a b = true
    · rw [if_pos h]
    · rw [if_neg h]
      exact (List.Perm.cons b ih).trans (List.Perm.swap a b t)

theorem sortByJs_perm (le : α → α → Bool) (l : List α) :
    (sortByJs le l).Perm l := by
  induction l with
  | nil => exact List.Perm.refl _
  | cons a t ih =>
    have heq : sortByJs le (a :: t) = insertSorted le a (sortByJs le t) := rfl
    rw [heq]
    exact (insertSorted_perm le a _).trans (List.Perm.cons a ih)

theorem mem_insertSorted {le : α → α → Bool} {a x : α} {l : List α} :
    x ∈ insertSorted le a l → x = a ∨ x ∈ l := by
  intro h
  have := (insertSorted_perm le a l).mem_iff.mp h
  simpa using this

theorem insertSorted_pairwise {le : α → α → Bool} {R : α → α → Prop}
    (hT : ∀ a b, le a b = true → R a b)
    (hF : ∀ a b, le a b = false → R b a)
    (hTrans : ∀ a b c, R a b → R b c → R a c)
    (a : α) : ∀ l : List α, l.Pairwise R → (insertSorted le a l).Pairwise R := by
  intro l
  induction l with
  | nil => intro _; exact List.pairwise_singleton R a
  | cons b t ih =>
    intro hp
    rcases List.pairwise_cons.mp hp with ⟨hb, ht⟩
    unfold insertSorted
    by_cases h : le a b = true
    · rw [if_pos h]
      refine List.pairwise_cons.mpr ⟨?_, hp⟩
      intro x hx
      rcases List.mem_cons.mp hx with rfl | hx
      · exact hT a x h
      · exact hTrans a b x (hT a b h) (hb x hx)
    · rw [if_neg h]
      refine List.pairwise_cons.mpr ⟨?_, ih ht⟩
      intro x hx
      rcases mem_insertSorted hx with rfl | hx
      · exact hF x b (Bool.eq_false_iff.mpr h)
      · exact hb x hx
theorem sortByJs_pairwise {le : α → α → Bool} {R : α → α → Prop}
    (hT : ∀ a b, le a b = true → R a b)
    (hF : ∀ a b, le a b = false → R b a)
    (hTrans : ∀ a b c, R a b → R b c → R a c) :
    ∀ l : List α, (sortByJs le l).Pairwise R := by
  intro l
  induction l with
  | nil => exact List.Pairwise.nil
  | cons a t ih => exact insertSorted_pairwise hT hF hTrans a _ ih

/-! ## Counting lemmas for the permutation engine -/

theorem length_flatMap_map {l : List α} {m : List β} {f : α → β → γ} :
    (l.flatMap (fun a => m.map (f a))).length = l.length * m.length := by
  induction l with
  | nil => simp
  | cons a t ih => simp [List.flatMap_cons, ih, Nat.succ_mul, Nat.add_comm]

theorem flavorComboStep_length (combos : List (List RuleData)) (lvl : FlavorLevel) :
    (flavorComboStep combos lvl).length = combos.length * lvl.flavors.length := by
  unfold flavorComboStep
  exact length_flatMap_map

theorem flavorCombos_foldl_length :
    ∀ (ls : List FlavorLevel) (acc : List (List RuleData)),
      (ls.foldl flavorComboStep acc).length
        = acc.length * (ls.map (fun l => l.flavors.length)).prod := by
  intro ls
  induction ls with
  | nil => intro acc; simp
  | cons l t ih =>
    intro acc
    rw [List.foldl_cons, ih, List.map_cons, List.prod_cons, flavorComboStep_length]
    ring

theorem flavorCombos_length (ls : List FlavorLevel) :
    (generateFlavorCombinations ls).length = max 1 (ls.map (fun l => l.flavors.length)).prod := by
  unfold generateFlavorCombinations
  by_cases hnil : ls = []
  · subst hnil; simp
  · rw [if_neg hnil]
    dsimp only
    have hperm : ((sortByJs levelLe ls).map (fun l => l.flavors.length)).prod
        = (ls.map (fun l => l.flavors.length)).prod :=
      ((sortByJs_perm levelLe ls).map (fun l => l.flavors.length)).prod_eq
    have hlen := flavorCombos_foldl_length (sortByJs levelLe ls) [[]]
    simp only [List.length_singleton, Nat.one_mul] at hlen
    by_cases hzero : ((sortByJs levelLe ls).map (fun l => l.flavors.length)).prod = 0
    · have hcombos : ((sortByJs levelLe ls).foldl flavorComboStep [[]]) = [] := by
        apply List.length_eq_zero.mp
        rw [hlen, hzero]
      rw [hperm] at hzero
      rw [hcombos, hzero]
      simp
    · have hpos : 0 < ((sortByJs levelLe ls).foldl flavorComboStep [[]]).length := by
        rw [hlen]
        exact Nat.pos_of_ne_zero hzero
      have hne : ((sortByJs levelLe ls).foldl flavorComboStep [[]]) ≠ [] := by
        intro hcontra
        rw [hcontra] at hpos
        simp at hpos
      rw [if_neg hne, hlen, ← hperm]
      have : 1 ≤ ((sortByJs levelLe ls).map (fun l => l.flavors.length)).prod :=
        Nat.one_le_iff_ne_zero.mpr hzero
      omega

theorem rulesToProcess_length (rules : List RuleData) :
    (rulesToProcess rules).length = max 1 rules.length := by
  unfold rulesToProcess
  by_cases h : rules.length > 0
  · rw [if_pos h]; omega
  · rw [if_neg h]; simp at h; simp [h]

theorem generateRulesPermutations_length (commonRules : RuleData) (rules : List RuleData)
    (ls : List FlavorLevel) (now : String) :
    (generateRulesPermutations commonRules rules ls now).length
      = max 1 rules.length * max 1 (ls.map (fun l => l.flavors.length)).prod := by
  unfold generateRulesPermutations
  rw [length_flatMap_map, rulesToProcess_length, flavorCombos_length]

theorem prod_filterMap (f : α → Option β) (g : β → Nat) :
    ∀ l : List α, ((l.filterMap f).map g).prod
      = (l.map (fun a => (((f a).map g).getD 1))).prod := by
  intro l
  induction l with
  | nil => rfl
  | cons a t ih =>
    rw [List.filterMap_cons, List.map_cons, List.prod_cons]
    rcases hfa : f a with _ | b
    · rw [ih]
      simp
    · rw [List.map_cons, List.prod_cons, ih]
      simp

theorem readFlavorLevelOf_factor (cfg : Config) (fs : FS) (key : String) :
    (((readFlavorLevelOf cfg fs key).map (fun l => l.flavors.length)).getD 1)
      = skipZero (flavorDocCount cfg fs key) := by
  unfold readFlavorLevelOf flavorDocCount skipZero
  rcases hp : parseFlavorKey key with _ | level <;>
    rcases hg : configInputGet cfg key with _ | dir
  · rfl
  · rfl
  · rfl
  · dsimp only
    by_cases hlen : (readFlavorDirectory fs dir).length > 0
    · rw [if_pos hlen]
      have hne : ¬((readFlavorDirectory fs dir).length = 0) := by omega
      simp [hne]
    · rw [if_neg hlen]
      have h0 : (readFlavorDirectory fs dir).length = 0 := by omega
      simp [h0]

theorem readFlavorLevels_pos (cfg : Config) (fs : FS) :
    ∀ lvl ∈ readFlavorLevels cfg fs, 0 < lvl.flavors.length := by
  intro lvl hmem
  rcases List.mem_filterMap.mp hmem with ⟨key, _, hkey⟩
  unfold readFlavorLevelOf at hkey
  rcases hp : parseFlavorKey key with _ | level <;>
    rcases hg : configInputGet cfg key with _ | dir <;>
      rw [hp, hg] at hkey
  · exact Option.noConfusion hkey
  · exact Option.noConfusion hkey
  · exact Option.noConfusion hkey
  · dsimp only at hkey
    by_cases hlen : (readFlavorDirectory fs dir).length > 0
    · rw [if_pos hlen] at hkey
      cases hkey
      simpa using hlen
    · rw [if_neg hlen] at hkey
      exact Option.noConfusion hkey

theorem readFlavorLevels_prod (cfg : Config) (fs : FS) :
    ((readFlavorLevels cfg fs).map (fun l => l.flavors.length)).prod
      = ((flavorKeysOf cfg).map (fun key => skipZero (flavorDocCount cfg fs key))).prod := by
  unfold readFlavorLevels
  rw [prod_filterMap]
  congr 1
  apply List.map_congr_left
  intro key _
  exact readFlavorLevelOf_factor cfg fs key

theorem max_one_prod_of_pos {l : List Nat} (h : ∀ x ∈ l, 0 < x) :
    max 1 l.prod = l.prod := by
  have : 0 < l.prod := List.prod_pos h
  omega

end Vibotron

namespace Vibotron

theorem process_success_common (cfg : Config) (fs : FS) (now : String)
    (hok : (processRulesAndFlavors cfg fs now).2 = true) :
    ∃ common, readCommonRules cfg (clearOldFiles cfg fs) = some common := by
  unfold processRulesAndFlavors at hok
  dsimp only at hok
  rcases hc : readCommonRules cfg (clearOldFiles cfg fs) with _ | common
  · rw [hc] at hok
    simp at hok
  · exact ⟨common, rfl⟩

/-- C1: for every successful run of the permutation expansion with a
configured permutations directory, the number of permutation documents
written equals max(1, number of rule variants) times the product of the
flavor counts of the non-empty flavor levels; a flavor level yielding
zero documents contributes the factor one (it is skipped), never zero. -/
theorem claim_C1_permutation_count (cfg : Config) (fs : FS) (now : String) (d : String)
    (hdir : truthy cfg.rules_permutations_directory = some d)
    (hok : (processRulesAndFlavors cfg fs now).2 = true) :
    (processPermutationWrites cfg fs now).length =
      max 1 (readRulesDirectory cfg (clearOldFiles cfg fs)).length *
        ((flavorKeysOf cfg).map (fun key =>
          skipZero (flavorDocCount cfg (clearOldFiles cfg fs) key))).prod := by
  obtain ⟨common, hcommon⟩ := process_success_common cfg fs now hok
  unfold processPermutationWrites
  dsimp only
  rw [hcommon, hdir]
  dsimp only
  rw [generateRulesPermutations_length]
  have hall : ∀ x ∈ (readFlavorLevels cfg (clearOldFiles cfg fs)).map
      (fun l => l.flavors.length), 0 < x := by
    intro x hx
    rcases List.mem_map.mp hx with ⟨lvl, hlvl, rfl⟩
    exact readFlavorLevels_pos cfg (clearOldFiles cfg fs) lvl hlvl
  rw [max_one_prod_of_pos hall, readFlavorLevels_prod]

/-- Witness for C1: two rule variants, a first flavor level with two
documents and a second configured flavor level with zero documents; the
empty level is skipped and the count is 2 by 2. -/
theorem claim_C1_permutation_count_witness :
    (truthy (Config.mk
        (some [("rules_common_file", "ws/common.txt"), ("rules_directory", "ws/rules"),
               ("flavors_level_1_directory", "ws/f1"), ("flavors_level_2_directory", "ws/f2")])
        (some "out/all.txt") (some "out/perms")).rules_permutations_directory = some "out/perms"
     ∧ (processRulesAndFlavors (Config.mk
          (some [("rules_common_file", "ws/common.txt"), ("rules_directory", "ws/rules"),
                 ("flavors_level_1_directory", "ws/f1"), ("flavors_level_2_directory", "ws/f2")])
          (some "out/all.txt") (some "out/perms"))
        (FS.mk [("ws/common.txt", some "C"), ("ws/rules/r1.txt", some "R1"),
                ("ws/rules/r2.txt", some "R2"), ("ws/f1/a.txt", some "A"),
                ("ws/f1/b.txt", some "B")]
               [("ws/rules", ["r1.txt", "r2.txt"]), ("ws/f1", ["a.txt", "b.txt"]),
                ("ws/f2", [])]) "T").2 = true)
    ∧ (processPermutationWrites (Config.mk
          (some [("rules_common_file", "ws/common.txt"), ("rules_directory", "ws/rules"),
                 ("flavors_level_1_directory", "ws/f1"), ("flavors_level_2_directory", "ws/f2")])
          (some "out/all.txt") (some "out/perms"))
        (FS.mk [("ws/common.txt", some "C"), ("ws/rules/r1.txt", some "R1"),
                ("ws/rules/r2.txt", some "R2"), ("ws/f1/a.txt", some "A"),
                ("ws/f1/b.txt", some "B")]
               [("ws/rules", ["r1.txt", "r2.txt"]), ("ws/f1", ["a.txt", "b.txt"]),
                ("ws/f2", [])]) "T").length =
      max 1 (readRulesDirectory (Config.mk
          (some [("rules_common_file", "ws/common.txt"), ("rules_directory", "ws/rules"),
                 ("flavors_level_1_directory", "ws/f1"), ("flavors_level_2_directory", "ws/f2")])
          (some "out/all.txt") (some "out/perms"))
        (clearOldFiles (Config.mk
          (some [("rules_common_file", "ws/common.txt"), ("rules_directory", "ws/rules"),
                 ("flavors_level_1_directory", "ws/f1"), ("flavors_level_2_directory", "ws/f2")])
          (some "out/all.txt") (some "out/perms"))
          (FS.mk [("ws/common.txt", some "C"), ("ws/rules/r1.txt", some "R1"),
                  ("ws/rules/r2.txt", some "R2"), ("ws/f1/a.txt", some "A"),
                  ("ws/f1/b.txt", some "B")]
                 [("ws/rules", ["r1.txt", "r2.txt"]), ("ws/f1", ["a.txt", "b.txt"]),
                  ("ws/f2", [])]))).length *
        ((flavorKeysOf (Config.mk
          (some [("rules_common_file", "ws/common.txt"), ("rules_directory", "ws/rules"),
                 ("flavors_level_1_directory", "ws/f1"), ("flavors_level_2_directory", "ws/f2")])
          (some "out/all.txt") (some "out/perms"))).map (fun key =>
          skipZero (flavorDocCount (Config.mk
            (some [("rules_common_file", "ws/common.txt"), ("rules_directory", "ws/rules"),
                   ("flavors_level_1_directory", "ws/f1"), ("flavors_level_2_directory", "ws/f2")])
            (some "out/all.txt") (some "out/perms"))
            (clearOldFiles (Config.mk
              (some [("rules_common_file", "ws/common.txt"), ("rules_directory", "ws/rules"),
                     ("flavors_level_1_directory", "ws/f1"), ("flavors_level_2_directory", "ws/f2")])
              (some "out/all.txt") (some "out/perms"))
              (FS.mk [("ws/common.txt", some "C"), ("ws/rules/r1.txt", some "R1"),
                      ("ws/rules/r2.txt", some "R2"), ("ws/f1/a.txt", some "A"),
                      ("ws/f1/b.txt", some "B")]
                     [("ws/rules", ["r1.txt", "r2.txt"]), ("ws/f1", ["a.txt", "b.txt"]),
                      ("ws/f2", [])])) key))).prod :=
  ⟨⟨by decide, by decide⟩,
    claim_C1_permutation_count _ _ "T" "out/perms" (by decide) (by decide)⟩

end Vibotron

namespace Vibotron

/-! ## Lemmas for the destructive reset (clearOldFiles) -/

theorem find?_filter_of_pred_false {β : Type} (p : String)
    (q : (String × β) → Bool) (hq : ∀ e, e.1 = p → q e = false) :
    ∀ l : List (String × β), (l.filter q).find? (fun e => e.1 == p) = none := by
  intro l
  induction l with
  | nil => rfl
  | cons e t ih =>
    rw [List.filter_cons]
    by_cases hqe : q e = true
    · rw [if_pos hqe]
      rw [List.find?_cons]
      by_cases hep : (e.1 == p) = true
      · exact absurd hqe (by rw [hq e (by simpa using hep)]; simp)
      · rw [Bool.eq_false_iff.mpr hep] at *
        simpa using ih
    · rw [if_neg hqe]
      exact ih

theorem find?_none_of_filter {β : Type} (pr : (String × β) → Bool)
    (q : (String × β) → Bool) :
    ∀ l : List (String × β), l.find? pr = none → (l.filter q).find? pr = none := by
  intro l
  induction l with
  | nil => intro _; rfl
  | cons e t ih =>
    intro h
    rw [List.find?_cons] at h
    by_cases hp : pr e = true
    · rw [hp] at h
      exact Option.noConfusion h
    · have hf : pr e = false := Bool.eq_false_iff.mpr hp
      rw [hf] at h
      rw [List.filter_cons]
      by_cases hq : q e = true
      · rw [if_pos hq, List.find?_cons, hf]
        exact ih h
      · rw [if_neg hq]
        exact ih h

theorem isSome_false_eq_none {α : Type} {o : Option α} (h : o.isSome = false) :
    o = none := by
  cases o
  · rfl
  · simp at h

theorem existsFile_unlink_self (fs : FS) (p : String) :
    existsFile (unlinkFile fs p) p = false := by
  unfold existsFile unlinkFile
  rw [find?_filter_of_pred_false p _ (fun e he => by simp [he]) fs.files]
  rfl

theorem removeTree_kills {β : Type} (l : List (String × β)) (p q : String)
    (h : q = p ∨ strStartsWith q (p ++ "/") = true) :
    ((l.filter (fun e => !(e.1 == p) && !(strStartsWith e.1 (p ++ "/")))).find?
      (fun e => e.1 == q)) = none := by
  apply find?_filter_of_pred_false
  intro e he
  subst he
  rcases h with rfl | hpre
  · simp
  · simp [hpre]

/-- C9: every invocation of the permutation expansion deletes the old
aggregate file and recursively removes the permutations directory before
the common-rules file is read; a run failing on the common rules leaves
exactly the cleared state behind (the reset is not rolled back). -/
theorem claim_C9_destructive_reset (cfg : Config) (fs : FS) (now : String) (pa pd : String)
    (hpa : truthy cfg.rules_all_file = some pa)
    (hpd : truthy cfg.rules_permutations_directory = some pd)
    (hfail : readCommonRules cfg (clearOldFiles cfg fs) = none) :
    processRulesAndFlavors cfg fs now = (clearOldFiles cfg fs, false)
    ∧ existsFile (clearOldFiles cfg fs) pa = false
    ∧ existsDir (clearOldFiles cfg fs) pd = false
    ∧ (existsDir fs pd = true →
        ∀ q, strStartsWith q (pd ++ "/") = true →
          existsFile (clearOldFiles cfg fs) q = false
          ∧ existsDir (clearOldFiles cfg fs) q = false) := by
  have hresult : processRulesAndFlavors cfg fs now = (clearOldFiles cfg fs, false) := by
    unfold processRulesAndFlavors
    dsimp only
    rw [hfail]
  have hclear : clearOldFiles cfg fs =
      (let fs₁ := if existsPath fs pa then unlinkFile fs pa else fs
       if existsPath fs₁ pd then removeTree fs₁ pd else fs₁) := by
    unfold clearOldFiles
    rw [hpa, hpd]
  have hfs₁_file : existsFile (if existsPath fs pa then unlinkFile fs pa else fs) pa = false := by
    by_cases hex : existsPath fs pa = true
    · rw [if_pos hex]
      exact existsFile_unlink_self fs pa
    · rw [if_neg hex]
      unfold existsPath at hex
      rcases Bool.or_eq_false_iff.mp (Bool.eq_false_iff.mpr hex) with ⟨h1, _⟩
      exact h1
  constructor
  · exact hresult
  refine ⟨?_, ?_, ?_⟩
  · rw [hclear]
    dsimp only
    by_cases hex : existsPath (if existsPath fs pa then unlinkFile fs pa else fs) pd = true
    · rw [if_pos hex]
      unfold existsFile at hfs₁_file ⊢
      unfold removeTree
      rw [find?_none_of_filter _ _ _ (isSome_false_eq_none hfs₁_file)]
      rfl
    · rw [if_neg hex]
      exact hfs₁_file
  · rw [hclear]
    dsimp only
    by_cases hex : existsPath (if existsPath fs pa then unlinkFile fs pa else fs) pd = true
    · rw [if_pos hex]
      unfold existsDir removeTree
      rw [removeTree_kills _ pd pd (Or.inl rfl)]
      rfl
    · rw [if_neg hex]
      unfold existsPath at hex
      rcases Bool.or_eq_false_iff.mp (Bool.eq_false_iff.mpr hex) with ⟨_, h2⟩
      exact h2
  · intro hdirfs q hq
    have hdirs₁ : (if existsPath fs pa then unlinkFile fs pa else fs).dirs = fs.dirs := by
      by_cases hex : existsPath fs pa = true
      · rw [if_pos hex]; rfl
      · rw [if_neg hex]
    have hex : existsPath (if existsPath fs pa then unlinkFile fs pa else fs) pd = true := by
      have hdir₁ : existsDir (if existsPath fs pa = true then unlinkFile fs pa else fs) pd
          = true := by
        unfold existsDir
        rw [hdirs₁]
        exact hdirfs
      have hsplit : existsPath (if existsPath fs pa = true then unlinkFile fs pa else fs) pd
          = (existsFile (if existsPath fs pa = true then unlinkFile fs pa else fs) pd
             || existsDir (if existsPath fs pa = true then unlinkFile fs pa else fs) pd) := rfl
      rw [hsplit, hdir₁]
      simp
    rw [hclear]
    dsimp only
    rw [if_pos hex]
    constructor
    · unfold existsFile removeTree
      rw [removeTree_kills _ pd q (Or.inr hq)]
      rfl
    · unfold existsDir removeTree
      rw [removeTree_kills _ pd q (Or.inr hq)]
      rfl

/-- Witness for C9: a configuration whose common-rules file is missing;
the old aggregate file and the old permutations directory (including a
file inside it) are gone although the run reports failure. -/
theorem claim_C9_destructive_reset_witness :
    (truthy (Config.mk (some [("rules_common_file", "ws/common.txt")])
        (some "out/all.txt") (some "out/perms")).rules_all_file = some "out/all.txt"
     ∧ truthy (Config.mk (some [("rules_common_file", "ws/common.txt")])
        (some "out/all.txt") (some "out/perms")).rules_permutations_directory = some "out/perms"
     ∧ readCommonRules (Config.mk (some [("rules_common_file", "ws/common.txt")])
          (some "out/all.txt") (some "out/perms"))
        (clearOldFiles (Config.mk (some [("rules_common_file", "ws/common.txt")])
          (some "out/all.txt") (some "out/perms"))
          (FS.mk [("out/all.txt", some "old"), ("out/perms/p1.txt", some "x")]
                 [("out/perms", ["p1.txt"])])) = none)
    ∧ (processRulesAndFlavors (Config.mk (some [("rules_common_file", "ws/common.txt")])
          (some "out/all.txt") (some "out/perms"))
        (FS.mk [("out/all.txt", some "old"), ("out/perms/p1.txt", some "x")]
               [("out/perms", ["p1.txt"])]) "T"
        = (clearOldFiles (Config.mk (some [("rules_common_file", "ws/common.txt")])
            (some "out/all.txt") (some "out/perms"))
            (FS.mk [("out/all.txt", some "old"), ("out/perms/p1.txt", some "x")]
                   [("out/perms", ["p1.txt"])]), false)
       ∧ existsFile (clearOldFiles (Config.mk (some [("rules_common_file", "ws/common.txt")])
            (some "out/all.txt") (some "out/perms"))
            (FS.mk [("out/all.txt", some "old"), ("out/perms/p1.txt", some "x")]
                   [("out/perms", ["p1.txt"])])) "out/all.txt" = false
       ∧ existsDir (clearOldFiles (Config.mk (some [("rules_common_file", "ws/common.txt")])
            (some "out/all.txt") (some "out/perms"))
            (FS.mk [("out/all.txt", some "old"), ("out/perms/p1.txt", some "x")]
                   [("out/perms", ["p1.txt"])])) "out/perms" = false
       ∧ (existsDir (FS.mk [("out/all.txt", some "old"), ("out/perms/p1.txt", some "x")]
                   [("out/perms", ["p1.txt"])]) "out/perms" = true →
           ∀ q, strStartsWith q ("out/perms" ++ "/") = true →
             existsFile (clearOldFiles (Config.mk (some [("rules_common_file", "ws/common.txt")])
                (some "out/all.txt") (some "out/perms"))
                (FS.mk [("out/all.txt", some "old"), ("out/perms/p1.txt", some "x")]
                       [("out/perms", ["p1.txt"])])) q = false
             ∧ existsDir (clearOldFiles (Config.mk (some [("rules_common_file", "ws/common.txt")])
                (some "out/all.txt") (some "out/perms"))
                (FS.mk [("out/all.txt", some "old"), ("out/perms/p1.txt", some "x")]
                       [("out/perms", ["p1.txt"])])) q = false)) :=
  ⟨⟨by decide, by decide, by decide⟩,
    claim_C9_destructive_reset _ _ "T" "out/all.txt" "out/perms"
      (by decide) (by decide) (by decide)⟩

end Vibotron

namespace Vibotron

/-! ## Controller lemmas -/

theorem iterLoop_first_pass_zero (corrections : Nat → Option (Option DirListing))
    (regenOk : Nat → Bool) (maxIterations : Nat) (dir : Option DirListing)
    (h1 : 1 ≤ maxIterations) (hd : corrections 1 = some dir)
    (h0 : countEvaluationFailures dir = 0) :
    iterLoop corrections regenOk maxIterations 0
      = { evalPasses := 1, regenPasses := 0, success := true } := by
  rw [iterLoop.eq_def, if_pos (by omega : (0 : Nat) < maxIterations)]
  simp only [Nat.zero_add, hd]
  rw [if_pos h0]

theorem countEvalFailures_no_txt (entries : DirListing)
    (h : ∀ e ∈ entries, strEndsWith e.1 ".txt" = false) :
    countEvaluationFailures (some entries) = 0 := by
  unfold countEvaluationFailures correctionFileNames
  dsimp only
  have hfilter : (entries.map (fun e => e.1)).filter (fun f => strEndsWith f ".txt") = [] := by
    rw [List.filter_eq_nil_iff]
    intro name hname
    rcases List.mem_map.mp hname with ⟨e, he, rfl⟩
    simp [h e he]
  rw [hfilter]
  rfl

theorem countEvalFailures_unsorted (entries : DirListing) :
    countEvaluationFailures (some entries)
      = (((entries.map (fun e => e.1)).filter (fun f => strEndsWith f ".txt")).map
          (readEntry entries)).countP evalFailOfRead := by
  unfold countEvaluationFailures correctionFileNames
  exact List.Perm.countP_eq _
    (List.Perm.map _ (sortByJs_perm localeLe _))

theorem find?_name_append (entries : DirListing) (x : String × Option String) (name : String)
    (hmem : name ∈ entries.map (fun e => e.1)) :
    (entries ++ [x]).find? (fun e => e.1 == name) = entries.find? (fun e => e.1 == name) := by
  induction entries with
  | nil => simp at hmem
  | cons e t ih =>
    rw [List.cons_append, List.find?_cons, List.find?_cons]
    by_cases hpred : (e.1 == name) = true
    · rw [hpred]
    · rw [Bool.eq_false_iff.mpr hpred]
      apply ih
      rcases List.mem_map.mp hmem with ⟨e₂, he₂, rfl⟩
      rcases List.mem_cons.mp he₂ with rfl | he₂
      · exact absurd (by simp : (e₂.1 == e₂.1) = true) hpred
      · exact List.mem_map.mpr ⟨e₂, he₂, rfl⟩

theorem find?_name_append_fresh (entries : DirListing) (x : String × Option String)
    (hfresh : ∀ e ∈ entries, (e.1 == x.1) = false) :
    (entries ++ [x]).find? (fun e => e.1 == x.1) = some x := by
  induction entries with
  | nil => simp
  | cons e t ih =>
    rw [List.cons_append, List.find?_cons, hfresh e (List.mem_cons_self e t)]
    exact ih (fun e₂ he₂ => hfresh e₂ (List.mem_cons_of_mem e he₂))

theorem readEntry_append (entries : DirListing) (x : String × Option String) (name : String)
    (hmem : name ∈ entries.map (fun e => e.1)) :
    readEntry (entries ++ [x]) name = readEntry entries name := by
  unfold readEntry
  rw [find?_name_append entries x name hmem]

theorem readEntry_append_fresh (entries : DirListing) (name c : String)
    (hfresh : ∀ e ∈ entries, (e.1 == name) = false) :
    readEntry (entries ++ [(name, some c)]) name = some (stripComments c) := by
  unfold readEntry
  rw [find?_name_append_fresh entries (name, some c) hfresh]
  rfl

theorem containsEvalFail_of_marker (cs : List Char) :
    containsEvalFailChars cs = true → containsEvalMarkerChars cs = true := by
  induction cs with
  | nil => intro h; exact absurd h (by decide)
  | cons c rest ih =>
    intro h
    unfold containsEvalFailChars at h
    unfold containsEvalMarkerChars
    rcases Bool.or_eq_true_iff.mp h with hat | hrest
    · unfold matchEvalFailAt at hat
      rcases Bool.and_eq_true_iff.mp hat with ⟨h1, h2⟩
      apply Bool.or_eq_true_iff.mpr
      left
      unfold matchEvalMarkerAt
      rw [h1, h2]
      simp
    · exact Bool.or_eq_true_iff.mpr (Or.inr (ih hrest))

theorem countEvalFailures_append_nomarker (entries : DirListing) (name c : String)
    (htxt : strEndsWith name ".txt" = true)
    (hnomark : containsEvalMarker (stripComments c) = false)
    (hfresh : ∀ e ∈ entries, (e.1 == name) = false) :
    countEvaluationFailures (some (entries ++ [(name, some c)]))
      = countEvaluationFailures (some entries) := by
  rw [countEvalFailures_unsorted, countEvalFailures_unsorted]
  have hnames : (entries ++ [(name, some c)]).map (fun e => e.1)
      = entries.map (fun e => e.1) ++ [name] := by
    rw [List.map_append]
    rfl
  rw [hnames, List.filter_append]
  have hfiltx : [name].filter (fun f => strEndsWith f ".txt") = [name] := by
    simp [List.filter_cons, htxt]
  rw [hfiltx, List.map_append, List.countP_append]
  have hold : ((entries.map (fun e => e.1)).filter (fun f => strEndsWith f ".txt")).map
      (readEntry (entries ++ [(name, some c)]))
      = ((entries.map (fun e => e.1)).filter (fun f => strEndsWith f ".txt")).map
        (readEntry entries) := by
    apply List.map_congr_left
    intro n hn
    exact readEntry_append entries (name, some c) n (List.mem_of_mem_filter hn)
  rw [hold]
  have hnew : ([name].map (readEntry (entries ++ [(name, some c)]))).countP evalFailOfRead
      = 0 := by
    rw [List.map_cons, readEntry_append_fresh entries name c hfresh]
    have hnofail : containsEvalFail (stripComments c) = false := by
      cases hfail : containsEvalFail (stripComments c)
      · rfl
      · have hmk : containsEvalMarker (stripComments c) = true :=
          containsEvalFail_of_marker (stripComments c).data hfail
        rw [hnomark] at hmk
        exact Bool.noConfusion hmk
    simp [List.countP_cons, evalFailOfRead, hnofail]
  rw [hnew]
  omega

end Vibotron

namespace Vibotron

theorem countTotal_append_txt (entries : DirListing) (name : String) (v : Option String)
    (htxt : strEndsWith name ".txt" = true) :
    countTotalEvaluations (some (entries ++ [(name, v)]))
      = countTotalEvaluations (some entries) + 1 := by
  unfold countTotalEvaluations
  dsimp only
  rw [List.map_append, List.filter_append, List.length_append]
  simp [List.filter_cons, htxt]

theorem iterLoop_congr (c₁ c₂ : Nat → Option (Option DirListing)) (r : Nat → Bool)
    (h : ∀ i, (c₁ i).map (fun d => countEvaluationFailures d)
            = (c₂ i).map (fun d => countEvaluationFailures d)) :
    ∀ (n m cur : Nat), m - cur ≤ n → iterLoop c₁ r m cur = iterLoop c₂ r m cur := by
  intro n
  induction n with
  | zero =>
    intro m cur hn
    rw [iterLoop.eq_def, iterLoop.eq_def, if_neg (by omega), if_neg (by omega)]
  | succ n ih =>
    intro m cur hn
    by_cases hlt : cur < m
    · rw [iterLoop.eq_def, iterLoop.eq_def, if_pos hlt, if_pos hlt]
      dsimp only
      have hcur := h (cur + 1)
      rcases hc₁ : c₁ (cur + 1) with _ | d₁
      · rw [hc₁] at hcur
        rcases hc₂ : c₂ (cur + 1) with _ | d₂
        · rfl
        · rw [hc₂] at hcur
          simp at hcur
      · rw [hc₁] at hcur
        rcases hc₂ : c₂ (cur + 1) with _ | d₂
        · rw [hc₂] at hcur
          simp at hcur
        · rw [hc₂] at hcur
          have hcount : countEvaluationFailures d₁ = countEvaluationFailures d₂ := by
            simpa using hcur
          dsimp only
          rw [hcount]
          by_cases hz : countEvaluationFailures d₂ = 0
          · rw [if_pos hz, if_pos hz]
          · rw [if_neg hz, if_neg hz]
            by_cases hm : m ≤ cur + 1
            · rw [if_pos hm, if_pos hm]
            · rw [if_neg hm, if_neg hm]
              by_cases hr : r (cur + 1) = true
              · rw [if_pos hr, if_pos hr, ih m (cur + 1) (by omega)]
              · rw [if_neg hr, if_neg hr]
    · rw [iterLoop.eq_def, iterLoop.eq_def, if_neg hlt, if_neg hlt]

/-! ## Claim theorems for the controller and the counters -/

/-- C3: the iterative-improvement loop converges after exactly one
evaluation pass when the first pass reports zero failures, for any
iteration cap of at least one; and with a cap of three and every pass
reporting at least one failure it performs exactly three evaluation
passes and two regeneration passes and still terminates successfully. -/
theorem claim_C3_controller_convergence :
    (∀ (corrections : Nat → Option (Option DirListing)) (regenOk : Nat → Bool)
        (maxIterations : Nat) (dir : Option DirListing),
        1 ≤ maxIterations → corrections 1 = some dir →
        countEvaluationFailures dir = 0 →
        iterLoop corrections regenOk maxIterations 0
          = { evalPasses := 1, regenPasses := 0, success := true })
    ∧ (∀ (corrections : Nat → Option (Option DirListing)) (regenOk : Nat → Bool),
        (∀ i, ∃ dir, corrections i = some dir ∧ 1 ≤ countEvaluationFailures dir) →
        (∀ i, regenOk i = true) →
        iterLoop corrections regenOk 3 0
          = { evalPasses := 3, regenPasses := 2, success := true }) := by
  constructor
  · intro corrections regenOk maxIterations dir h1 hd h0
    exact iterLoop_first_pass_zero corrections regenOk maxIterations dir h1 hd h0
  · intro corrections regenOk hall hregen
    have h3 : iterLoop corrections regenOk 3 2
        = { evalPasses := 1, regenPasses := 0, success := true } := by
      obtain ⟨d, hd, hc⟩ := hall 3
      rw [iterLoop.eq_def, if_pos (by omega : (2 : Nat) < 3)]
      simp only [show (2 : Nat) + 1 = 3 from rfl, hd]
      rw [if_neg (by omega), if_pos (by omega : 3 ≤ 3)]
    have h2 : iterLoop corrections regenOk 3 1
        = { evalPasses := 2, regenPasses := 1, success := true } := by
      obtain ⟨d, hd, hc⟩ := hall 2
      rw [iterLoop.eq_def, if_pos (by omega : (1 : Nat) < 3)]
      simp only [show (1 : Nat) + 1 = 2 from rfl, hd]
      rw [if_neg (by omega), if_neg (by omega : ¬(3 ≤ 2)), if_pos (hregen 2)]
      rw [h3]
    obtain ⟨d, hd, hc⟩ := hall 1
    rw [iterLoop.eq_def, if_pos (by omega : (0 : Nat) < 3)]
    simp only [Nat.zero_add, hd]
    rw [if_neg (by omega), if_neg (by omega : ¬(3 ≤ 1)), if_pos (hregen 1)]
    rw [h2]

/-- Witness for C3: an empty corrections listing converges in one pass
with a cap of two, and a constantly failing artifact with a cap of three
yields three evaluation passes and two regenerations. -/
theorem claim_C3_controller_convergence_witness :
    ((1 ≤ 2
      ∧ (fun _ : Nat => some (some ([] : DirListing))) 1 = some (some ([] : DirListing))
      ∧ countEvaluationFailures (some ([] : DirListing)) = 0)
     ∧ iterLoop (fun _ => some (some ([] : DirListing))) (fun _ => true) 2 0
        = { evalPasses := 1, regenPasses := 0, success := true })
    ∧ iterLoop (fun _ => some (some [("a.txt",
          some "EVALUATION: FAIL\nCORRECTIONS: Improve the answer")]))
        (fun _ => true) 3 0
        = { evalPasses := 3, regenPasses := 2, success := true } :=
  ⟨⟨⟨by decide, rfl, by decide⟩,
    claim_C3_controller_convergence.1 _ _ 2 (some []) (by decide) rfl (by decide)⟩,
    claim_C3_controller_convergence.2 _ _
      (fun i => ⟨some [("a.txt", some "EVALUATION: FAIL\nCORRECTIONS: Improve the answer")],
        rfl, by decide⟩)
      (fun i => rfl)⟩

/-- C10: when the corrections directory is missing or holds no .txt
artifact after the first evaluation pass, the failure count is zero and
the controller converges successfully on that very pass. -/
theorem claim_C10_empty_corrections (corrections : Nat → Option (Option DirListing))
    (regenOk : Nat → Bool) (maxIterations : Nat) (dir : Option DirListing)
    (h1 : 1 ≤ maxIterations) (hd : corrections 1 = some dir)
    (hempty : dir = none ∨ ∃ entries, dir = some entries
        ∧ ∀ e ∈ entries, strEndsWith e.1 ".txt" = false) :
    countEvaluationFailures dir = 0
    ∧ iterLoop corrections regenOk maxIterations 0
        = { evalPasses := 1, regenPasses := 0, success := true } := by
  have h0 : countEvaluationFailures dir = 0 := by
    rcases hempty with rfl | ⟨entries, rfl, hno⟩
    · rfl
    · exact countEvalFailures_no_txt entries hno
  exact ⟨h0, iterLoop_first_pass_zero corrections regenOk maxIterations dir h1 hd h0⟩

/-- Witness for C10: a listing holding only a non-.txt file (whose content
even carries a FAIL verdict) counts zero failures and the loop converges
immediately. -/
theorem claim_C10_empty_corrections_witness :
    (1 ≤ 3
     ∧ (fun _ : Nat => some (some [("a.md", some "EVALUATION: FAIL")])) 1
        = some (some [("a.md", some "EVALUATION: FAIL")])
     ∧ (∀ e ∈ [(("a.md" : String), some ("EVALUATION: FAIL" : String))],
          strEndsWith e.1 ".txt" = false))
    ∧ countEvaluationFailures (some [("a.md", some "EVALUATION: FAIL")]) = 0
    ∧ iterLoop (fun _ => some (some [("a.md", some "EVALUATION: FAIL")])) (fun _ => false) 3 0
        = { evalPasses := 1, regenPasses := 0, success := true } :=
  ⟨⟨by decide, rfl, by decide⟩,
    claim_C10_empty_corrections _ _ 3 (some [("a.md", some "EVALUATION: FAIL")])
      (by decide) rfl (Or.inr ⟨_, rfl, by decide⟩)⟩

/-- C6 counterexample: a .txt artifact without any EVALUATION marker is
excluded from failureCount but is counted by countTotalEvaluations, so it
lands on the pass side of the total (total minus failures grows by one),
contradicting the claim that it contributes to neither side. -/
theorem claim_C6_counterexample :
    containsEvalMarker (stripComments "hello") = false
    ∧ countEvaluationFailures (some [("a.txt", some "hello")]) = 0
    ∧ countTotalEvaluations (some [("a.txt", some "hello")]) = 1
    ∧ ¬(countTotalEvaluations (some [("a.txt", some "hello")])
          - countEvaluationFailures (some [("a.txt", some "hello")])
        = countTotalEvaluations (some ([] : DirListing))
          - countEvaluationFailures (some ([] : DirListing))) := by
  refine ⟨by decide, by decide, by decide, ?_⟩
  decide

/-- C6 (amended): an artifact whose comment-stripped content has no
EVALUATION marker is excluded from failureCount and is not fatal (the
controller behaves as if the artifact were absent), but it is counted by
countTotalEvaluations and therefore appears on the pass side of the
reported total. -/
theorem claim_C6_amended (entries : DirListing) (name c : String)
    (htxt : strEndsWith name ".txt" = true)
    (hnomark : containsEvalMarker (stripComments c) = false)
    (hfresh : ∀ e ∈ entries, (e.1 == name) = false) :
    countEvaluationFailures (some (entries ++ [(name, some c)]))
      = countEvaluationFailures (some entries)
    ∧ countTotalEvaluations (some (entries ++ [(name, some c)]))
        = countTotalEvaluations (some entries) + 1
    ∧ (∀ (regenOk : Nat → Bool) (maxIterations currentIteration : Nat),
        iterLoop (fun _ => some (some (entries ++ [(name, some c)])))
            regenOk maxIterations currentIteration
          = iterLoop (fun _ => some (some entries)) regenOk maxIterations currentIteration) := by
  have hcount := countEvalFailures_append_nomarker entries name c htxt hnomark hfresh
  refine ⟨hcount, countTotal_append_txt entries name (some c) htxt, ?_⟩
  intro regenOk maxIterations currentIteration
  exact iterLoop_congr _ _ regenOk
    (fun i => by simp [hcount]) (maxIterations - currentIteration)
    maxIterations currentIteration (Nat.le_refl _)

/-- Witness for C6 (amended) on a one-artifact listing plus one
marker-less artifact. -/
theorem claim_C6_amended_witness :
    (strEndsWith "b.txt" ".txt" = true
     ∧ containsEvalMarker (stripComments "just text") = false
     ∧ (∀ e ∈ [(("a.txt" : String), some ("EVALUATION: FAIL" : String))],
          (e.1 == "b.txt") = false))
    ∧ (countEvaluationFailures (some ([("a.txt", some "EVALUATION: FAIL")]
          ++ [("b.txt", some "just text")]))
        = countEvaluationFailures (some [("a.txt", some "EVALUATION: FAIL")])
       ∧ countTotalEvaluations (some ([("a.txt", some "EVALUATION: FAIL")]
            ++ [("b.txt", some "just text")]))
          = countTotalEvaluations (some [("a.txt", some "EVALUATION: FAIL")]) + 1
       ∧ (∀ (regenOk : Nat → Bool) (maxIterations currentIteration : Nat),
          iterLoop (fun _ => some (some ([("a.txt", some "EVALUATION: FAIL")]
              ++ [("b.txt", some "just text")])))
              regenOk maxIterations currentIteration
            = iterLoop (fun _ => some (some [("a.txt", some "EVALUATION: FAIL")]))
                regenOk maxIterations currentIteration)) :=
  ⟨⟨by decide, by decide, by decide⟩,
    claim_C6_amended [("a.txt", some "EVALUATION: FAIL")] "b.txt" "just text"
      (by decide) (by decide) (by decide)⟩

end Vibotron

namespace Vibotron

/-! ## Parsing lemmas for the correction artifacts -/

theorem listStartsWithCI_le_length {cs pat : List Char}
    (h : listStartsWithCI cs pat = true) : pat.length ≤ cs.length := by
  unfold listStartsWithCI at h
  have heq : (cs.take pat.length).map Char.toLower = pat := by
    exact beq_iff_eq.mp h
  have hlen := congrArg List.length heq
  rw [List.length_map, List.length_take] at hlen
  omega

theorem isJsSpace_toLower_ne_f {c : Char} (h : isJsSpace c = true) :
    ¬(c.toLower = 'f') := by
  unfold isJsSpace at h
  simp only [Bool.or_eq_true, decide_eq_true_eq] at h
  rcases h with ((((rfl | rfl) | rfl) | rfl) | rfl) | rfl <;> decide

theorem dropWhile_append_of_all {p : Char → Bool} {ws : List Char}
    (h : ∀ c ∈ ws, p c = true) (l : List Char) :
    (ws ++ l).dropWhile p = l.dropWhile p := by
  induction ws with
  | nil => rfl
  | cons c t ih =>
    rw [List.cons_append, List.dropWhile_cons, if_pos (h c (List.mem_cons_self c t))]
    exact ih (fun c₂ hc₂ => h c₂ (List.mem_cons_of_mem c hc₂))

theorem dropWhile_dropWhile (p : Char → Bool) (l : List Char) :
    (l.dropWhile p).dropWhile p = l.dropWhile p := by
  induction l with
  | nil => rfl
  | cons c t ih =>
    rw [List.dropWhile_cons]
    by_cases hc : p c = true
    · rw [if_pos hc]
      exact ih
    · rw [if_neg hc, List.dropWhile_cons,
        if_neg (by rw [Bool.eq_false_iff.mpr hc]; simp)]

theorem all_of_dropWhile_nil {p : Char → Bool} :
    ∀ {l : List Char}, l.dropWhile p = [] → ∀ c ∈ l, p c = true := by
  intro l
  induction l with
  | nil => intro _ c hc; exact absurd hc (List.not_mem_nil c)
  | cons a t ih =>
    intro h c hc
    rw [List.dropWhile_cons] at h
    by_cases ha : p a = true
    · rw [if_pos ha] at h
      rcases List.mem_cons.mp hc with rfl | hc
      · exact ha
      · exact ih h c hc
    · rw [if_neg ha] at h
      exact List.noConfusion h

theorem matchEvalFailAt_iff (cs : List Char) :
    matchEvalFailAt cs = true ↔
      ∃ mid ws post, cs = mid ++ ws ++ post
        ∧ mid.map Char.toLower = "evaluation:".data
        ∧ (∀ c ∈ ws, isJsSpace c = true)
        ∧ (post.take 4).map Char.toLower = "fail".data := by
  constructor
  · intro h
    unfold matchEvalFailAt at h
    rcases Bool.and_eq_true_iff.mp h with ⟨h1, h2⟩
    refine ⟨cs.take 11, (cs.drop 11).takeWhile isJsSpace, (cs.drop 11).dropWhile isJsSpace,
      ?_, ?_, ?_, ?_⟩
    · rw [List.append_assoc, List.takeWhile_append_dropWhile, List.take_append_drop]
    · exact beq_iff_eq.mp h1
    · intro c hc
      exact List.mem_takeWhile_imp hc
    · exact beq_iff_eq.mp h2
  · rintro ⟨mid, ws, post, rfl, hmid, hws, hpost⟩
    have hmidlen : mid.length = 11 := by
      have := congrArg List.length hmid
      rw [List.length_map] at this
      exact this
    have hpostlen : 4 ≤ post.length := by
      have := congrArg List.length hpost
      rw [List.length_map, List.length_take] at this
      have : min 4 post.length = 4 := this
      omega
    unfold matchEvalFailAt
    apply Bool.and_eq_true_iff.mpr
    constructor
    · unfold listStartsWithCI
      apply beq_iff_eq.mpr
      have htake : (mid ++ ws ++ post).take 11 = mid := by
        rw [List.append_assoc, ← hmidlen, List.take_left]
      rw [show ("evaluation:".data.length) = 11 from rfl] at *
      rw [htake, hmid]
    · have hdrop : (mid ++ ws ++ post).drop 11 = ws ++ post := by
        rw [List.append_assoc, ← hmidlen, List.drop_left]
      rw [hdrop, dropWhile_append_of_all hws]
      rcases hp : post with _ | ⟨p0, rest⟩
      · rw [hp] at hpostlen
        simp at hpostlen
      · have hp0 : p0.toLower = 'f' := by
          rw [hp] at hpost
          have h4 : p0.toLower :: (rest.take 3).map Char.toLower
              = ['f', 'a', 'i', 'l'] := hpost
          exact ((List.cons.injEq _ _ _ _).mp h4).1
        have hp0ns : isJsSpace p0 = false := by
          cases hns : isJsSpace p0
          · rfl
          · exact absurd hp0 (isJsSpace_toLower_ne_f hns)
        rw [List.dropWhile_cons, if_neg (by rw [hp0ns]; simp)]
        unfold listStartsWithCI
        apply beq_iff_eq.mpr
        rw [← hp]
        exact hpost

theorem containsEvalFailChars_iff (cs : List Char) :
    containsEvalFailChars cs = true ↔
      ∃ pre rest, cs = pre ++ rest ∧ matchEvalFailAt rest = true := by
  induction cs with
  | nil =>
    constructor
    · intro h
      exact absurd h (by decide)
    · rintro ⟨pre, rest, hsplit, hmatch⟩
      rcases List.append_eq_nil.mp hsplit.symm with ⟨rfl, rfl⟩
      exact absurd hmatch (by decide)
  | cons c t ih =>
    constructor
    · intro h
      unfold containsEvalFailChars at h
      rcases Bool.or_eq_true_iff.mp h with hat | hrest
      · exact ⟨[], c :: t, rfl, hat⟩
      · rcases ih.mp hrest with ⟨pre, rest, hsplit, hmatch⟩
        exact ⟨c :: pre, rest, by rw [List.cons_append, hsplit], hmatch⟩
    · rintro ⟨pre, rest, hsplit, hmatch⟩
      unfold containsEvalFailChars
      apply Bool.or_eq_true_iff.mpr
      rcases pre with _ | ⟨p0, pre'⟩
      · left
        rw [List.nil_append] at hsplit
        rw [hsplit]
        exact hmatch
      · right
        rw [List.cons_append] at hsplit
        have := (List.cons.injEq _ _ _ _).mp hsplit
        exact ih.mpr ⟨pre', rest, this.2, hmatch⟩

theorem containsEvalFail_iff_spec (content : String) :
    containsEvalFail content = true ↔ evalFailSpec content := by
  unfold containsEvalFail evalFailSpec
  rw [containsEvalFailChars_iff]
  constructor
  · rintro ⟨pre, rest, hsplit, hmatch⟩
    rcases (matchEvalFailAt_iff rest).mp hmatch with ⟨mid, ws, post, rfl, hmid, hws, hpost⟩
    exact ⟨pre, mid, ws, post, by rw [hsplit]; simp [List.append_assoc], hmid, hws, hpost⟩
  · rintro ⟨pre, mid, ws, post, hsplit, hmid, hws, hpost⟩
    refine ⟨pre, mid ++ ws ++ post, by rw [hsplit]; simp [List.append_assoc], ?_⟩
    exact (matchEvalFailAt_iff _).mpr ⟨mid, ws, post, rfl, hmid, hws, hpost⟩

end Vibotron

namespace Vibotron

theorem correctionsTail_short : ∀ cs : List Char, cs.length < 12 → correctionsTail cs = none := by
  intro cs
  induction cs with
  | nil => intro _; rfl
  | cons c t ih =>
    intro hlen
    unfold correctionsTail
    have hno : listStartsWithCI (c :: t) "corrections:".data = false := by
      cases hb : listStartsWithCI (c :: t) "corrections:".data
      · rfl
      · have := listStartsWithCI_le_length hb
        rw [show ("corrections:".data.length) = 12 from rfl] at this
        simp only [List.length_cons] at this hlen
        omega
    rw [hno]
    simp only [Bool.false_eq_true, if_neg (by simp : ¬False)]
    apply ih
    simp only [List.length_cons] at hlen
    omega

theorem correctionsTail_first : ∀ (pre rest : List Char),
    listStartsWithCI rest "corrections:".data = true →
    (∀ p q, pre = p ++ q → q ≠ [] →
      listStartsWithCI (q ++ rest) "corrections:".data = false) →
    ((rest.drop 12 ≠ [] → correctionsTail (pre ++ rest) = some (rest.drop 12))
     ∧ (rest.drop 12 = [] → correctionsTail (pre ++ rest) = none)) := by
  intro pre
  induction pre with
  | nil =>
    intro rest hmark _
    rw [List.nil_append]
    have hlen : 12 ≤ rest.length := by
      have := listStartsWithCI_le_length hmark
      simpa using this
    rcases rest with _ | ⟨c, t⟩
    · simp at hlen
    · constructor
      · intro hne
        rw [correctionsTail.eq_2, if_pos hmark]
        dsimp only
        have hbeq : (List.drop 12 (c :: t) == ([] : List Char)) = false := by
          cases hb : (List.drop 12 (c :: t) == ([] : List Char))
          · rfl
          · exact absurd (beq_iff_eq.mp hb) hne
        rw [if_neg (by rw [hbeq]; simp)]
      · intro hnil
        rw [correctionsTail.eq_2, if_pos hmark]
        dsimp only
        rw [if_pos (beq_iff_eq.mpr hnil)]
        apply correctionsTail_short
        have hd := congrArg List.length hnil
        simp only [List.length_drop, List.length_cons, List.length_nil] at hd hlen ⊢
        omega
  | cons c pre' ih =>
    intro rest hmark hfirst
    rw [List.cons_append]
    have hno : listStartsWithCI (c :: (pre' ++ rest)) "corrections:".data = false := by
      have hx := hfirst [] (c :: pre') rfl (by simp)
      rw [List.cons_append] at hx
      exact hx
    rw [correctionsTail.eq_2, if_neg (by rw [hno]; simp)]
    exact ih rest hmark (fun p q hpq hq =>
      hfirst (c :: p) q (by rw [hpq, List.cons_append]) hq)

theorem dropWhile_head_false {p : Char → Bool} :
    ∀ {l : List Char} {c : Char} {t : List Char}, l.dropWhile p = c :: t → p c = false := by
  intro l
  induction l with
  | nil => intro c t h; exact List.noConfusion h
  | cons a l₂ ih =>
    intro c t h
    rw [List.dropWhile_cons] at h
    by_cases ha : p a = true
    · rw [if_pos ha] at h
      exact ih h
    · rw [if_neg ha] at h
      cases h
      exact Bool.eq_false_iff.mpr ha

theorem dropWhile_eq_nil_of_all {p : Char → Bool} :
    ∀ {l : List Char}, (∀ c ∈ l, p c = true) → l.dropWhile p = [] := by
  intro l
  induction l with
  | nil => intro _; rfl
  | cons a t ih =>
    intro h
    rw [List.dropWhile_cons, if_pos (h a (List.mem_cons_self a t))]
    exact ih (fun c hc => h c (List.mem_cons_of_mem a hc))

theorem trim_all_space {l : List Char} (h : ∀ c ∈ l, isJsSpace c = true) :
    trimChars l = [] := by
  unfold trimChars
  rw [dropWhile_eq_nil_of_all h]
  rfl

theorem trim_correctionCapture {tail : List Char} (hne : tail ≠ []) :
    trimChars (correctionCapture tail) = trimChars tail := by
  unfold correctionCapture
  by_cases hws : tail.dropWhile isJsSpace == []
  · rw [if_pos hws]
    have hall : ∀ c ∈ tail, isJsSpace c = true :=
      all_of_dropWhile_nil (by simpa using hws)
    have hdropall : ∀ c ∈ tail.drop (tail.length - 1), isJsSpace c = true := by
      intro c hc
      exact hall c (List.mem_of_mem_drop hc)
    rw [trim_all_space hdropall, trim_all_space hall]
  · rw [if_neg (by simpa using (by simpa using hws : ¬(tail.dropWhile isJsSpace = [])))]
    unfold trimChars
    rw [dropWhile_dropWhile]

end Vibotron

namespace Vibotron

theorem extractCorrectionText_first (content : String) (pre rest : List Char)
    (hsplit : content.data = pre ++ rest)
    (hmark : listStartsWithCI rest "corrections:".data = true)
    (hfirst : ∀ p q, pre = p ++ q → q ≠ [] →
      listStartsWithCI (q ++ rest) "corrections:".data = false) :
    (rest.drop 12 ≠ [] →
      extractCorrectionText content = some (String.mk (trimChars (rest.drop 12))))
    ∧ (rest.drop 12 = [] → extractCorrectionText content = none) := by
  have h := correctionsTail_first pre rest hmark hfirst
  constructor
  · intro hne
    unfold extractCorrectionText
    rw [hsplit, h.1 hne]
    exact congrArg some (congrArg String.mk (trim_correctionCapture hne))
  · intro hnil
    unfold extractCorrectionText
    rw [hsplit, h.2 hnil]
    rfl

theorem collectCorrections_excludes (entries : DirListing) :
    ∀ t ∈ collectCorrections entries, ¬(lowerStr t = "none needed") := by
  intro t ht
  unfold collectCorrections at ht
  rcases List.mem_filterMap.mp ht with ⟨file, _, hparse⟩
  rcases hr : readEntry entries file with _ | content
  · rw [hr] at hparse
    exact Option.noConfusion hparse
  · rw [hr] at hparse
    dsimp only at hparse
    by_cases hfail : containsEvalFail content = true
    · rw [if_pos hfail] at hparse
      rcases hx : extractCorrectionText content with _ | text
      · rw [hx] at hparse
        exact Option.noConfusion hparse
      · rw [hx] at hparse
        dsimp only at hparse
        by_cases hnn : (lowerStr text == "none needed") = true
        · rw [if_neg (by rw [hnn]; simp)] at hparse
          exact Option.noConfusion hparse
        · rw [if_pos (by rw [Bool.eq_false_iff.mpr hnn]; simp)] at hparse
          cases hparse
          intro hcontra
          exact hnn (beq_iff_eq.mpr hcontra)
    · rw [if_neg hfail] at hparse
      exact Option.noConfusion hparse

/-- C7 (amended): an artifact is counted FAIL iff its content matches
EVALUATION, optional whitespace, FAIL case-insensitively; for a FAIL
artifact with at least one character after the first CORRECTIONS: marker
the correction text is everything after the marker to end of file,
trimmed (with nothing after the marker, no correction is extracted); the
worked example extracts Add more detail.; corrections equal to none
needed case-insensitively never reach the aggregation, which joins the
collected corrections of the file-sorted artifacts with blank lines. -/
theorem claim_C7_correction_parsing :
    (∀ content : String, containsEvalFail content = true ↔ evalFailSpec content)
    ∧ (∀ (content : String) (pre rest : List Char),
        content.data = pre ++ rest →
        listStartsWithCI rest "corrections:".data = true →
        (∀ p q, pre = p ++ q → q ≠ [] →
          listStartsWithCI (q ++ rest) "corrections:".data = false) →
        (rest.drop 12 ≠ [] →
          extractCorrectionText content = some (String.mk (trimChars (rest.drop 12))))
        ∧ (rest.drop 12 = [] → extractCorrectionText content = none))
    ∧ (containsEvalFail "EVALUATION: FAIL\n...\nCORRECTIONS: Add more detail." = true
       ∧ extractCorrectionText "EVALUATION: FAIL\n...\nCORRECTIONS: Add more detail."
          = some "Add more detail.")
    ∧ (∀ (entries : DirListing) (t : String), t ∈ collectCorrections entries →
        ¬(lowerStr t = "none needed"))
    ∧ (∀ entries : DirListing,
        correctionsContent entries = strJoin "\n\n" (collectCorrections entries)) :=
  ⟨containsEvalFail_iff_spec,
   extractCorrectionText_first,
   ⟨by decide, by decide⟩,
   collectCorrections_excludes,
   fun _ => rfl⟩

/-- Witness for C7: the FAIL matcher accepted via an explicit
decomposition, and an extraction at a marker sitting at position zero. -/
theorem claim_C7_correction_parsing_witness :
    containsEvalFail "EVALUATION: FAIL" = true
    ∧ extractCorrectionText "CORRECTIONS: y"
        = some (String.mk (trimChars ("CORRECTIONS: y".data.drop 12))) :=
  ⟨(claim_C7_correction_parsing.1 "EVALUATION: FAIL").mpr
      ⟨[], "EVALUATION:".data, [' '], "FAIL".data, by decide, by decide, by decide, by decide⟩,
   (claim_C7_correction_parsing.2.1 "CORRECTIONS: y" [] "CORRECTIONS: y".data
      rfl (by decide)
      (fun p q hpq hq => absurd (List.append_eq_nil.mp hpq.symm).2 hq)).1 (by decide)⟩

/-- C7 counterexample: on a FAIL artifact whose content ends exactly at
the CORRECTIONS: marker, the claim-side rule (everything after the first
marker, trimmed) yields the empty correction, which is not the none
needed sentinel and so would be aggregated; the source regular expression
requires at least one character after the marker and extracts nothing, so
the artifact contributes no correction at all. -/
theorem claim_C7_counterexample :
    containsEvalFail "EVALUATION: FAIL\nCORRECTIONS:" = true
    ∧ claimExtractCorrection "EVALUATION: FAIL\nCORRECTIONS:" = some ""
    ∧ extractCorrectionText "EVALUATION: FAIL\nCORRECTIONS:" = none
    ∧ collectCorrections [("a.txt", some "EVALUATION: FAIL\nCORRECTIONS:")] = [] :=
  ⟨by decide, by decide, by decide, by decide⟩

end Vibotron

namespace Vibotron

/-! ## Ordering lemmas for the flavor keys -/

theorem lexLeChars_refl : ∀ l : List Char, lexLeChars l l = true := by
  intro l
  induction l with
  | nil => rfl
  | cons a t ih =>
    unfold lexLeChars
    rw [if_neg (lt_irrefl a), if_neg (lt_irrefl a)]
    exact ih

theorem lexLeChars_total : ∀ a b : List Char, lexLeChars a b = false → lexLeChars b a = true := by
  intro a
  induction a with
  | nil => intro b h; exact absurd h (by unfold lexLeChars; simp)
  | cons x as ih =>
    intro b h
    cases b with
    | nil => rfl
    | cons y bs =>
      unfold lexLeChars at h ⊢
      by_cases hxy : x < y
      · rw [if_pos hxy] at h
        exact Bool.noConfusion h
      · rw [if_neg hxy] at h
        by_cases hyx : y < x
        · rw [if_pos hyx]
        · rw [if_neg hyx] at h
          rw [if_neg hyx, if_neg hxy]
          exact ih bs h

theorem lexLeChars_trans :
    ∀ a b c : List Char, lexLeChars a b = true → lexLeChars b c = true →
      lexLeChars a c = true := by
  intro a
  induction a with
  | nil => intro b c _ _; rfl
  | cons x as ih =>
    intro b c hab hbc
    cases b with
    | nil => exact absurd hab (by unfold lexLeChars; simp)
    | cons y bs =>
      cases c with
      | nil => exact absurd hbc (by unfold lexLeChars; simp)
      | cons z cs =>
        unfold lexLeChars at hab hbc ⊢
        by_cases hxy : x < y
        · rw [if_pos hxy] at hab
          by_cases hyz : y < z
          · rw [if_pos (lt_trans hxy hyz)]
          · by_cases hzy : z < y
            · rw [if_neg hyz, if_pos hzy] at hbc
              exact Bool.noConfusion hbc
            · have hyz₂ : y = z := le_antisymm (not_lt.mp hzy) (not_lt.mp hyz)
              rw [if_pos (hyz₂ ▸ hxy)]
        · rw [if_neg hxy] at hab
          by_cases hyx : y < x
          · rw [if_pos hyx] at hab
            exact Bool.noConfusion hab
          · rw [if_neg hyx] at hab
            have hxy₂ : x = y := le_antisymm (not_lt.mp hyx) (not_lt.mp hxy)
            subst hxy₂
            by_cases hxz : x < z
            · rw [if_pos hxz]
            · rw [if_neg hxz] at hbc ⊢
              by_cases hzx : z < x
              · rw [if_pos hzx] at hbc
                exact Bool.noConfusion hbc
              · rw [if_neg hzx] at hbc ⊢
                exact ih bs cs hab hbc

end Vibotron

namespace Vibotron

theorem lexLeChars_append_common (c c₂ : Char) (S : List Char) :
    ∀ P : List Char, lexLeChars (P ++ c :: S) (P ++ c₂ :: S) = true ↔ c ≤ c₂ := by
  intro P
  induction P with
  | nil =>
    rw [List.nil_append, List.nil_append]
    unfold lexLeChars
    by_cases h1 : c < c₂
    · rw [if_pos h1]
      simp [le_of_lt h1]
    · rw [if_neg h1]
      by_cases h2 : c₂ < c
      · rw [if_pos h2]
        simp [not_le.mpr h2]
      · rw [if_neg h2, lexLeChars_refl]
        have hcc : c = c₂ := le_antisymm (not_lt.mp h2) (not_lt.mp h1)
        simp [hcc]
  | cons a P₂ ih =>
    rw [List.cons_append, List.cons_append]
    unfold lexLeChars
    rw [if_neg (lt_irrefl a), if_neg (lt_irrefl a)]
    exact ih

theorem parseFlavorKey_single_digit (k : String) (lvl : Nat)
    (hp : parseFlavorKey k = some lvl) (hlen : k.data.length = 25) :
    ∃ c : Char, k.data = "flavors_level_".data ++ c :: "_directory".data
      ∧ lvl = c.toNat - 48 := by
  unfold parseFlavorKey at hp
  by_cases h1 : (listStartsWith k.data "flavors_level_".data
      && listEndsWith k.data "_directory".data) = true
  · rw [if_pos h1] at hp
    simp only [show ("flavors_level_".data.length) = 14 from rfl,
      show ("_directory".data.length) = 10 from rfl] at hp
    rcases Bool.and_eq_true_iff.mp h1 with ⟨hpre, hsuf⟩
    unfold listStartsWith at hpre
    unfold listEndsWith at hsuf
    rcases Bool.and_eq_true_iff.mp hsuf with ⟨_, hsufeq⟩
    have hpre₂ : k.data.take 14 = "flavors_level_".data := by
      have := beq_iff_eq.mp hpre
      simpa using this
    have hsuf₂ : k.data.drop 15 = "_directory".data := by
      have := beq_iff_eq.mp hsufeq
      rw [hlen] at this
      simpa using this
    have hmidlen : ((k.data.drop 14).take (k.data.length - 14 - 10)).length = 1 := by
      simp [List.length_take, List.length_drop, hlen]
    rcases hm : (k.data.drop 14).take (k.data.length - 14 - 10) with _ | ⟨c, rest⟩
    · rw [hm] at hmidlen
      simp at hmidlen
    · have hrest : rest = [] := by
        rw [hm] at hmidlen
        simp only [List.length_cons] at hmidlen
        exact List.length_eq_zero.mp (by omega)
      subst hrest
      refine ⟨c, ?_, ?_⟩
      · have hsplit : k.data = k.data.take 14 ++ k.data.drop 14 :=
          (List.take_append_drop 14 k.data).symm
        have hdropsplit : k.data.drop 14 = (k.data.drop 14).take 1 ++ (k.data.drop 14).drop 1 :=
          (List.take_append_drop 1 (k.data.drop 14)).symm
        have hone : (k.data.drop 14).take 1 = [c] := by
          rw [show (1 : Nat) = k.data.length - 14 - 10 by omega]
          rw [hm]
        have hdd : (k.data.drop 14).drop 1 = k.data.drop 15 := by
          rw [List.drop_drop]
        rw [hsplit, hpre₂]
        congr 1
        rw [hdropsplit, hone, hdd, hsuf₂]
        rfl
      · rw [hm] at hp
        by_cases hd : (!(([c] : List Char) == []) && ([c] : List Char).all Char.isDigit) = true
        · rw [if_pos hd] at hp
          cases hp
          unfold digitsToNat
          simp [List.foldl]
        · rw [if_neg hd] at hp
          exact Option.noConfusion hp
  · rw [if_neg h1] at hp
    exact Option.noConfusion hp

theorem pairwise_filterMap_of_pairwise {α β : Type} {R : α → α → Prop} {S : β → β → Prop}
    (f : α → Option β)
    (h : ∀ a b, R a b → ∀ x, f a = some x → ∀ y, f b = some y → S x y) :
    ∀ l : List α, l.Pairwise R → (l.filterMap f).Pairwise S := by
  intro l
  induction l with
  | nil => intro _; exact List.Pairwise.nil
  | cons a t ih =>
    intro hp
    rcases List.pairwise_cons.mp hp with ⟨hhead, htail⟩
    rw [List.filterMap_cons]
    rcases hfa : f a with _ | x
    · exact ih htail
    · apply List.pairwise_cons.mpr
      refine ⟨?_, ih htail⟩
      intro y hy
      rcases List.mem_filterMap.mp hy with ⟨b, hb, hfb⟩
      exact h a b (hhead b hb) x hfa y hfb

theorem pairwise_both {α : Type} {P : α → Prop} :
    ∀ l : List α, (∀ a ∈ l, P a) → l.Pairwise (fun a b => P a ∧ P b) := by
  intro l
  induction l with
  | nil => intro _; exact List.Pairwise.nil
  | cons a t ih =>
    intro h
    apply List.pairwise_cons.mpr
    refine ⟨?_, ih (fun b hb => h b (List.mem_cons_of_mem a hb))⟩
    intro b hb
    exact ⟨h a (List.mem_cons_self a t), h b (List.mem_cons_of_mem a hb)⟩

theorem flavorKeysOf_parse (cfg : Config) :
    ∀ k ∈ flavorKeysOf cfg, (parseFlavorKey k).isSome = true := by
  intro k hk
  unfold flavorKeysOf at hk
  rcases hcfg : cfg.input with _ | input
  · rw [hcfg] at hk
    exact absurd hk (List.not_mem_nil k)
  · rw [hcfg] at hk
    unfold flavorLevelKeys at hk
    have hk₂ := (sortByJs_perm localeLe _).mem_iff.mp hk
    exact (List.mem_filter.mp hk₂).2

theorem flavorKeysOf_pairwise (cfg : Config) :
    (flavorKeysOf cfg).Pairwise (fun a b => localeLe a b = true) := by
  unfold flavorKeysOf
  rcases cfg.input with _ | input
  · exact List.Pairwise.nil
  · unfold flavorLevelKeys
    apply sortByJs_pairwise
    · exact fun a b hab => hab
    · exact fun a b hab => lexLeChars_total a.data b.data hab
    · exact fun a b c hab hbc => lexLeChars_trans a.data b.data c.data hab hbc

theorem readFlavorLevelOf_parse (cfg : Config) (fs : FS) (key : String) (lvl : FlavorLevel)
    (h : readFlavorLevelOf cfg fs key = some lvl) :
    parseFlavorKey key = some lvl.level := by
  unfold readFlavorLevelOf at h
  rcases hp : parseFlavorKey key with _ | level <;>
    rcases hg : configInputGet cfg key with _ | dir <;>
      rw [hp, hg] at h
  · exact Option.noConfusion h
  · exact Option.noConfusion h
  · exact Option.noConfusion h
  · dsimp only at h
    by_cases hlen : (readFlavorDirectory fs dir).length > 0
    · rw [if_pos hlen] at h
      cases h
      rfl
    · rw [if_neg hlen] at h
      exact Option.noConfusion h

theorem readFlavorLevels_level_sorted (cfg : Config) (fs : FS)
    (hkeys : ∀ k ∈ flavorKeysOf cfg, k.data.length = 25) :
    (readFlavorLevels cfg fs).Pairwise (fun a b => a.level ≤ b.level) := by
  unfold readFlavorLevels
  apply pairwise_filterMap_of_pairwise (readFlavorLevelOf cfg fs)
    (R := fun a b => (localeLe a b = true) ∧ (a.data.length = 25 ∧ b.data.length = 25))
  · intro a b hr x hx y hy
    rcases hr with ⟨hle, ha25, hb25⟩
    have hpa := readFlavorLevelOf_parse cfg fs a x hx
    have hpb := readFlavorLevelOf_parse cfg fs b y hy
    rcases parseFlavorKey_single_digit a x.level hpa ha25 with ⟨c, hca, hva⟩
    rcases parseFlavorKey_single_digit b y.level hpb hb25 with ⟨c₂, hcb, hvb⟩
    have hcc : c ≤ c₂ := by
      unfold localeLe at hle
      rw [hca, hcb] at hle
      exact (lexLeChars_append_common c c₂ "_directory".data "flavors_level_".data).mp hle
    have htn : c.toNat ≤ c₂.toNat := by
      unfold Char.toNat
      rw [Char.le_def] at hcc
      exact hcc
    rw [hva, hvb]
    omega
  · exact (flavorKeysOf_pairwise cfg).and (pairwise_both (flavorKeysOf cfg) hkeys)

end Vibotron

namespace Vibotron

theorem pairwise_of_rel_all {α : Type} {R : α → α → Prop} :
    ∀ l : List α, (∀ x ∈ l, ∀ y ∈ l, R x y) → l.Pairwise R := by
  intro l
  induction l with
  | nil => intro _; exact List.Pairwise.nil
  | cons a t ih =>
    intro h
    apply List.pairwise_cons.mpr
    constructor
    · intro y hy
      exact h a (List.mem_cons_self a t) y (List.mem_cons_of_mem a hy)
    · exact ih (fun x hx y hy =>
        h x (List.mem_cons_of_mem a hx) y (List.mem_cons_of_mem a hy))

theorem flavorLevelSeq_pairwise (ls : List FlavorLevel)
    (hp : ls.Pairwise (fun a b => a.level ≤ b.level)) :
    (ls.flatMap (fun lvl => lvl.flavors.map (fun _ => lvl.level))).Pairwise
      (fun a b => a ≤ b) := by
  induction ls with
  | nil => exact List.Pairwise.nil
  | cons l t ih =>
    rcases List.pairwise_cons.mp hp with ⟨hhead, htail⟩
    rw [List.flatMap_cons]
    apply List.pairwise_append.mpr
    refine ⟨?_, ih htail, ?_⟩
    · apply pairwise_of_rel_all
      intro x hx y hy
      rcases List.mem_map.mp hx with ⟨_, _, rfl⟩
      rcases List.mem_map.mp hy with ⟨_, _, rfl⟩
      exact le_refl _
    · intro x hx y hy
      rcases List.mem_map.mp hx with ⟨_, _, rfl⟩
      rcases List.mem_flatMap.mp hy with ⟨lvl₂, hlvl₂, hy₂⟩
      rcases List.mem_map.mp hy₂ with ⟨_, _, rfl⟩
      exact hhead lvl₂ hlvl₂

/-- C5 (corrected, amended): the aggregate rules document concatenates the
provenance header, the common rules, every rule variant, and every flavor
variant level by level in the order readFlavorLevels produced them; that
order is the lexicographic order of the configuration keys, which agrees
with ascending numeric level order whenever all level numbers have the
same digit count — in particular the flavor sections appear in ascending
integer level order whenever every flavor key has a single-digit level. -/
theorem claim_C5_aggregate_order (cfg : Config) (fs : FS) (common : RuleData)
    (rules : List RuleData) (now : String)
    (hkeys : ∀ k ∈ flavorKeysOf cfg, k.data.length = 25) :
    generateRulesAllFile common rules (readFlavorLevels cfg fs) now
      = strJoin "\n\n" (rulesAllParts common rules (readFlavorLevels cfg fs) now)
    ∧ List.Chain' (fun a b => a ≤ b)
        ((readFlavorLevels cfg fs).flatMap
          (fun lvl => lvl.flavors.map (fun _ => lvl.level))) := by
  constructor
  · rfl
  · exact (flavorLevelSeq_pairwise _
      (readFlavorLevels_level_sorted cfg fs hkeys)).chain'

/-- Witness for C5 (amended) with two single-digit levels read in
ascending order. -/
theorem claim_C5_aggregate_order_witness :
    (∀ k ∈ flavorKeysOf (Config.mk (some [("rules_common_file", "c.txt"),
        ("flavors_level_2_directory", "d2"), ("flavors_level_1_directory", "d1")])
        none none), k.data.length = 25)
    ∧ (generateRulesAllFile ⟨"C", "c.txt", none⟩ []
        (readFlavorLevels (Config.mk (some [("rules_common_file", "c.txt"),
          ("flavors_level_2_directory", "d2"), ("flavors_level_1_directory", "d1")])
          none none)
         (FS.mk [("d1/a.txt", some "A"), ("d2/b.txt", some "B")]
                [("d1", ["a.txt"]), ("d2", ["b.txt"])])) "T"
        = strJoin "\n\n" (rulesAllParts ⟨"C", "c.txt", none⟩ []
          (readFlavorLevels (Config.mk (some [("rules_common_file", "c.txt"),
            ("flavors_level_2_directory", "d2"), ("flavors_level_1_directory", "d1")])
            none none)
           (FS.mk [("d1/a.txt", some "A"), ("d2/b.txt", some "B")]
                  [("d1", ["a.txt"]), ("d2", ["b.txt"])])) "T")
       ∧ List.Chain' (fun a b => a ≤ b)
          ((readFlavorLevels (Config.mk (some [("rules_common_file", "c.txt"),
            ("flavors_level_2_directory", "d2"), ("flavors_level_1_directory", "d1")])
            none none)
           (FS.mk [("d1/a.txt", some "A"), ("d2/b.txt", some "B")]
                  [("d1", ["a.txt"]), ("d2", ["b.txt"])])).flatMap
            (fun lvl => lvl.flavors.map (fun _ => lvl.level)))) :=
  ⟨by decide,
   claim_C5_aggregate_order _ _ ⟨"C", "c.txt", none⟩ [] "T" (by decide)⟩

set_option maxRecDepth 8192 in
/-- C5 counterexample: with configured flavor levels 2 and 10, the
localeCompare key sort places level 10 before level 2 (the first
differing characters are the digits 1 and 2), so the aggregate lists the
L10 flavor section before the L2 section, refuting ascending integer
level order for all level numbers. -/
theorem claim_C5_counterexample :
    (readFlavorLevels (Config.mk (some [("rules_common_file", "c.txt"),
        ("flavors_level_2_directory", "d2"), ("flavors_level_10_directory", "d10")])
        none none)
      (FS.mk [("d2/a.txt", some "A"), ("d10/b.txt", some "B")]
             [("d2", ["a.txt"]), ("d10", ["b.txt"])])).map (fun l => l.level) = [10, 2]
    ∧ ¬ List.Chain' (fun a b => a ≤ b)
        ((readFlavorLevels (Config.mk (some [("rules_common_file", "c.txt"),
            ("flavors_level_2_directory", "d2"), ("flavors_level_10_directory", "d10")])
            none none)
          (FS.mk [("d2/a.txt", some "A"), ("d10/b.txt", some "B")]
                 [("d2", ["a.txt"]), ("d10", ["b.txt"])])).flatMap
          (fun lvl => lvl.flavors.map (fun _ => lvl.level)))
    ∧ generateRulesAllFile ⟨"C", "c.txt", none⟩ []
        (readFlavorLevels (Config.mk (some [("rules_common_file", "c.txt"),
          ("flavors_level_2_directory", "d2"), ("flavors_level_10_directory", "d10")])
          none none)
         (FS.mk [("d2/a.txt", some "A"), ("d10/b.txt", some "B")]
                [("d2", ["a.txt"]), ("d10", ["b.txt"])])) "T"
      = "// Generated from:\n// Common rules: c.txt\n// Flavor L10: d10/b.txt\n// Flavor L2: d2/a.txt\n// Generated at: T\n\n\n// Common rules from: c.txt\n\nC\n\n// Flavor L10 from: d10/b.txt\n\nB\n\n// Flavor L2 from: d2/a.txt\n\nA" := by
  refine ⟨by decide, ?_, by decide⟩
  intro hch
  have hseq : ((readFlavorLevels (Config.mk (some [("rules_common_file", "c.txt"),
      ("flavors_level_2_directory", "d2"), ("flavors_level_10_directory", "d10")])
      none none)
    (FS.mk [("d2/a.txt", some "A"), ("d10/b.txt", some "B")]
           [("d2", ["a.txt"]), ("d10", ["b.txt"])])).flatMap
      (fun lvl => lvl.flavors.map (fun _ => lvl.level))) = [10, 2] := by decide
  rw [hseq] at hch
  rcases List.chain'_cons.mp hch with ⟨hle, _⟩
  omega

end Vibotron

namespace Vibotron
theorem strData_append (a b : String) : (a ++ b).data = a.data ++ b.data := by
  cases a; cases b; rfl

theorem strData_inj {a b : String} (h : a.data = b.data) : a = b := by
  cases a; cases b; simp only at h; rw [h]

theorem strJoin_data (ss : List String) :
    (strJoin "_" ss).data = joinU (ss.map String.data) := by
  induction ss with
  | nil => rfl
  | cons x xs ih =>
    cases xs with
    | nil => rfl
    | cons y ys =>
      show (x ++ "_" ++ strJoin "_" (y :: ys)).data = _
      rw [strData_append, strData_append, ih]
      simp [joinU, List.append_assoc]

theorem splitU_cons (c : Char) (rest : List Char) :
    splitU (c :: rest) = match splitU rest with
      | [] => [[]]
      | t :: ts => if c = '_' then [] :: t :: ts else (c :: t) :: ts := rfl

theorem splitU_ne_nil : ∀ cs : List Char, splitU cs ≠ [] := by
  intro cs
  cases cs with
  | nil => simp [splitU]
  | cons c rest =>
    rw [splitU_cons]
    cases splitU rest with
    | nil => simp
    | cons t ts =>
      by_cases h : c = '_'
      · simp [h]
      · simp [h]

theorem splitU_sepfree : ∀ t : List Char, '_' ∉ t → splitU t = [t] := by
  intro t
  induction t with
  | nil => intro _; rfl
  | cons c u ih =>
    intro h
    have hc : c ≠ '_' := fun hc => h (hc ▸ List.mem_cons_self c u)
    have hu : '_' ∉ u := fun hm => h (List.mem_cons_of_mem c hm)
    rw [splitU_cons, ih hu]
    simp [hc]

theorem splitU_append_sep : ∀ t rest : List Char, '_' ∉ t →
    splitU (t ++ '_' :: rest) = t :: splitU rest := by
  intro t
  induction t with
  | nil =>
    intro rest _
    show splitU ('_' :: rest) = [] :: splitU rest
    rw [splitU_cons]
    cases hs : splitU rest with
    | nil => exact absurd hs (splitU_ne_nil rest)
    | cons u us => simp
  | cons c u ih =>
    intro rest h
    have hc : c ≠ '_' := fun hc => h (hc ▸ List.mem_cons_self c u)
    have hu : '_' ∉ u := fun hm => h (List.mem_cons_of_mem c hm)
    show splitU (c :: (u ++ '_' :: rest)) = (c :: u) :: splitU rest
    rw [splitU_cons, ih rest hu]
    simp [hc]

theorem splitU_joinU : ∀ ts : List (List Char), ts ≠ [] →
    (∀ t ∈ ts, '_' ∉ t) → splitU (joinU ts) = ts := by
  intro ts
  induction ts with
  | nil => intro h; exact absurd rfl h
  | cons t us ih =>
    intro _ hfree
    cases us with
    | nil =>
      show splitU (joinU [t]) = [t]
      exact splitU_sepfree t (hfree t (List.mem_cons_self t []))
    | cons u vs =>
      show splitU (t ++ '_' :: joinU (u :: vs)) = t :: u :: vs
      rw [splitU_append_sep t _ (hfree t (List.mem_cons_self t _))]
      rw [ih (by simp) (fun x hx => hfree x (List.mem_cons_of_mem t hx))]

theorem joinU_inj {ts₁ ts₂ : List (List Char)} (h₁ : ts₁ ≠ []) (h₂ : ts₂ ≠ [])
    (hf₁ : ∀ t ∈ ts₁, '_' ∉ t) (hf₂ : ∀ t ∈ ts₂, '_' ∉ t)
    (heq : joinU ts₁ = joinU ts₂) : ts₁ = ts₂ := by
  have := congrArg splitU heq
  rwa [splitU_joinU ts₁ h₁ hf₁, splitU_joinU ts₂ h₂ hf₂] at this

theorem joinU_cons_ne (p : List Char) {L : List (List Char)} (h : L ≠ []) :
    joinU (p :: L) = p ++ '_' :: joinU L := by
  cases L with
  | nil => exact absurd rfl h
  | cons u vs => rfl

theorem joinU_split_head : ∀ (a b : List Char) (rest : List (List Char)),
    joinU ((a ++ '_' :: b) :: rest) = joinU (a :: b :: rest) := by
  intro a b rest
  cases rest with
  | nil => rfl
  | cons r rs =>
    rw [joinU_cons_ne (a ++ '_' :: b) (by simp), joinU_cons_ne a (by simp)]
    rw [joinU_cons_ne b (by simp)]
    simp [List.append_assoc]

theorem joinU_split (pre : List (List Char)) : ∀ (a b : List Char) (rest : List (List Char)),
    joinU (pre ++ (a ++ '_' :: b) :: rest) = joinU (pre ++ a :: b :: rest) := by
  induction pre with
  | nil => intro a b rest; exact joinU_split_head a b rest
  | cons p ps ih =>
    intro a b rest
    rw [List.cons_append, List.cons_append]
    rw [joinU_cons_ne p (by simp), joinU_cons_ne p (by simp)]
    rw [ih a b rest]


theorem digit_toNat {d : Nat} (hd : d < 10) : (Char.ofNat (48 + d)).toNat = 48 + d := by
  interval_cases d <;> decide

theorem digitsToNat_append (a : List Char) (c : Char) :
    digitsToNat (a ++ [c]) = 10 * digitsToNat a + (c.toNat - 48) := by
  simp [digitsToNat, List.foldl_append]

theorem digitsToNat_natToStrAux : ∀ fuel n : Nat, n < fuel →
    digitsToNat (natToStrAux fuel n) = n := by
  intro fuel
  induction fuel with
  | zero => intro n h; omega
  | succ f ih =>
    intro n h
    by_cases h10 : n < 10
    · show digitsToNat (if n < 10 then _ else _) = n
      rw [if_pos h10]
      show digitsToNat [Char.ofNat (48 + n)] = n
      simp [digitsToNat, digit_toNat h10]
    · show digitsToNat (if n < 10 then _ else _) = n
      rw [if_neg h10]
      rw [digitsToNat_append]
      have hdiv : n / 10 < f := by
        have h1 : n / 10 < n := Nat.div_lt_self (by omega) (by omega)
        omega
      rw [ih (n / 10) hdiv, digit_toNat (Nat.mod_lt n (by omega))]
      omega

theorem natToStr_inj {a b : Nat} (h : natToStr a = natToStr b) : a = b := by
  have hd : natToStrAux (a + 1) a = natToStrAux (b + 1) b := congrArg String.data h
  have := congrArg digitsToNat hd
  rwa [digitsToNat_natToStrAux (a + 1) a (Nat.lt_succ_self a),
       digitsToNat_natToStrAux (b + 1) b (Nat.lt_succ_self b)] at this

theorem natToStrAux_digit_range : ∀ fuel n : Nat, ∀ c ∈ natToStrAux fuel n,
    48 ≤ c.toNat ∧ c.toNat < 58 := by
  intro fuel
  induction fuel with
  | zero => intro n c hc; simp [natToStrAux] at hc
  | succ f ih =>
    intro n c hc
    by_cases h10 : n < 10
    · have : natToStrAux (f + 1) n = [Char.ofNat (48 + n)] := by
        show (if n < 10 then _ else _) = _
        rw [if_pos h10]
      rw [this] at hc
      rcases List.mem_singleton.mp hc with rfl
      rw [digit_toNat h10]
      omega
    · have : natToStrAux (f + 1) n
          = natToStrAux f (n / 10) ++ [Char.ofNat (48 + n % 10)] := by
        show (if n < 10 then _ else _) = _
        rw [if_neg h10]
      rw [this] at hc
      rcases List.mem_append.mp hc with hm | hm
      · exact ih (n / 10) c hm
      · rcases List.mem_singleton.mp hm with rfl
        rw [digit_toNat (Nat.mod_lt n (by omega))]
        omega

theorem natToStrAux_ne_nil (f n : Nat) : natToStrAux (f + 1) n ≠ [] := by
  by_cases h10 : n < 10
  · show (if n < 10 then _ else _) ≠ []
    rw [if_pos h10]; simp
  · show (if n < 10 then _ else _) ≠ []
    rw [if_neg h10]; simp

theorem levelToString_no_underscore (lv : Option Nat) :
    '_' ∉ (levelToString lv).data := by
  cases lv with
  | none => decide
  | some n =>
    intro hm
    have := natToStrAux_digit_range (n + 1) n '_' hm
    exact absurd this (by decide)

theorem levelToString_inj {a b : Option Nat} (h : levelToString a = levelToString b) :
    a = b := by
  cases a with
  | none =>
    cases b with
    | none => rfl
    | some m =>
      exfalso
      have hd : "undefined".data = natToStrAux (m + 1) m := congrArg String.data h
      have hu : 'u' ∈ natToStrAux (m + 1) m := by
        rw [← hd]; decide
      have := natToStrAux_digit_range (m + 1) m 'u' hu
      exact absurd this (by decide)
  | some n =>
    cases b with
    | none =>
      exfalso
      have hd : natToStrAux (n + 1) n = "undefined".data := congrArg String.data h
      have hu : 'u' ∈ natToStrAux (n + 1) n := by
        rw [hd]; decide
      have := natToStrAux_digit_range (n + 1) n 'u' hu
      exact absurd this (by decide)
    | some m => exact congrArg some (natToStr_inj h)


theorem filename_eq_spec (r : RuleData) (c : List RuleData) :
    permutationFilename r c = specFilename r c := by
  cases c with
  | nil =>
    show ruleBaseName r ++ (if (0 : Nat) > 0 then _ else "") ++ ".txt" = _
    rw [if_neg (by omega)]
    show ruleBaseName r ++ "" ++ ".txt" = strJoin "_" [ruleBaseName r] ++ ".txt"
    rw [String.append_empty]
    rfl
  | cons f fs =>
    show ruleBaseName r ++ (if (f :: fs).length > 0 then
        "_" ++ strJoin "_" ((f :: fs).map flavorToken) else "") ++ ".txt" = _
    rw [if_pos (by simp)]
    show _ = strJoin "_" (ruleBaseName r :: (f :: fs).map flavorToken) ++ ".txt"
    show ruleBaseName r ++ ("_" ++ strJoin "_" (flavorToken f :: fs.map flavorToken)) ++ ".txt"
      = (ruleBaseName r ++ "_" ++ strJoin "_" (flavorToken f :: fs.map flavorToken)) ++ ".txt"
    simp [String.append_assoc]

theorem flavorToken_data (f : RuleData) :
    (flavorToken f).data
      = ('L' :: (levelToString f.level).data) ++ '_' :: (basenameTxt f.source).data := by
  show ("L" ++ levelToString f.level ++ "_" ++ basenameTxt f.source).data = _
  rw [strData_append, strData_append, strData_append]
  simp [List.append_assoc]

theorem coarse_to_fine : ∀ (ts : List RuleData) (pre : List (List Char)),
    joinU (pre ++ ts.map (fun f => (flavorToken f).data))
      = joinU (pre ++ ts.flatMap (fun f =>
          [('L' :: (levelToString f.level).data), (basenameTxt f.source).data])) := by
  intro ts
  induction ts with
  | nil => intro pre; rfl
  | cons f fs ih =>
    intro pre
    rw [List.map_cons, List.flatMap_cons]
    rw [flavorToken_data f]
    rw [joinU_split pre]
    have h1 : pre ++ ('L' :: (levelToString f.level).data)
        :: (basenameTxt f.source).data :: fs.map (fun f => (flavorToken f).data)
        = (pre ++ [('L' :: (levelToString f.level).data), (basenameTxt f.source).data])
          ++ fs.map (fun f => (flavorToken f).data) := by
      simp
    have h2 : pre ++ (['L' :: (levelToString f.level).data, (basenameTxt f.source).data]
          ++ fs.flatMap (fun f =>
            [('L' :: (levelToString f.level).data), (basenameTxt f.source).data]))
        = (pre ++ [('L' :: (levelToString f.level).data), (basenameTxt f.source).data])
          ++ fs.flatMap (fun f =>
            [('L' :: (levelToString f.level).data), (basenameTxt f.source).data]) := by
      simp
    rw [h1, h2, ih]

theorem keyFlat_inj : ∀ k₁ k₂ : List (Option Nat × String),
    k₁.flatMap (fun e => [('L' :: (levelToString e.1).data), e.2.data])
      = k₂.flatMap (fun e => [('L' :: (levelToString e.1).data), e.2.data])
    → k₁ = k₂ := by
  intro k₁
  induction k₁ with
  | nil =>
    intro k₂ h
    cases k₂ with
    | nil => rfl
    | cons e t => simp [List.flatMap_cons] at h
  | cons e t ih =>
    intro k₂ h
    cases k₂ with
    | nil => simp [List.flatMap_cons] at h
    | cons e₂ t₂ =>
      rw [List.flatMap_cons, List.flatMap_cons] at h
      simp only [List.cons_append, List.nil_append, List.cons.injEq] at h
      rcases h with ⟨hL, hB, hrest⟩
      have hlv : e.1 = e₂.1 := levelToString_inj (strData_inj hL.2)
      have hb : e.2 = e₂.2 := strData_inj hB
      have ht : t = t₂ := ih t₂ hrest
      rw [ht, Prod.ext hlv hb]

theorem specFilename_data (r : RuleData) (c : List RuleData) :
    (specFilename r c).data
      = joinU (fineTokens (ruleBaseName r) (comboKey c)) ++ ".txt".data := by
  show (strJoin "_" (ruleBaseName r :: c.map flavorToken) ++ ".txt").data = _
  rw [strData_append, strJoin_data]
  congr 1
  show joinU ((ruleBaseName r).data :: (c.map flavorToken).map String.data) = _
  have hmm : (c.map flavorToken).map String.data = c.map (fun f => (flavorToken f).data) := by
    rw [List.map_map]; rfl
  rw [hmm]
  have := coarse_to_fine c [(ruleBaseName r).data]
  simp only [List.singleton_append] at this
  rw [this]
  show joinU ((ruleBaseName r).data :: c.flatMap (fun f =>
      [('L' :: (levelToString f.level).data), (basenameTxt f.source).data])) = _
  congr 1
  show _ = (ruleBaseName r).data :: (comboKey c).flatMap
      (fun e => [('L' :: (levelToString e.1).data), e.2.data])
  congr 1
  rw [comboKey, List.flatMap_map]

theorem fineTokens_free {rb : String} {k : List (Option Nat × String)}
    (hrb : '_' ∉ rb.data) (hk : ∀ e ∈ k, '_' ∉ e.2.data) :
    ∀ t ∈ fineTokens rb k, '_' ∉ t := by
  intro t ht
  rcases List.mem_cons.mp ht with rfl | ht
  · exact hrb
  · rcases List.mem_flatMap.mp ht with ⟨e, he, hmem⟩
    rcases List.mem_cons.mp hmem with rfl | hmem
    · intro hm
      rcases List.mem_cons.mp hm with hL | hm
      · exact absurd hL.symm (by decide)
      · exact levelToString_no_underscore e.1 hm
    · rcases List.mem_singleton.mp hmem with rfl
      exact hk e he

theorem filename_inj {r₁ r₂ : RuleData} {c₁ c₂ : List RuleData}
    (h₁ : '_' ∉ (ruleBaseName r₁).data) (h₂ : '_' ∉ (ruleBaseName r₂).data)
    (hc₁ : ∀ e ∈ comboKey c₁, '_' ∉ e.2.data) (hc₂ : ∀ e ∈ comboKey c₂, '_' ∉ e.2.data)
    (heq : permutationFilename r₁ c₁ = permutationFilename r₂ c₂) :
    ruleBaseName r₁ = ruleBaseName r₂ ∧ comboKey c₁ = comboKey c₂ := by
  rw [filename_eq_spec, filename_eq_spec] at heq
  have hdata := congrArg String.data heq
  rw [specFilename_data, specFilename_data] at hdata
  have hjoin := List.append_cancel_right hdata
  have hfine : fineTokens (ruleBaseName r₁) (comboKey c₁)
      = fineTokens (ruleBaseName r₂) (comboKey c₂) :=
    joinU_inj (by simp [fineTokens]) (by simp [fineTokens])
      (fineTokens_free h₁ hc₁) (fineTokens_free h₂ hc₂) hjoin
  rw [fineTokens, fineTokens] at hfine
  simp only [List.cons.injEq] at hfine
  exact ⟨strData_inj hfine.1, keyFlat_inj _ _ hfine.2⟩


theorem comboKey_append (c : List RuleData) (x : RuleData) :
    comboKey (c ++ [x]) = comboKey c ++ [(x.level, basenameTxt x.source)] := by
  simp [comboKey]

theorem flavorComboStep_map_comboKey (combos : List (List RuleData)) (lvl : FlavorLevel) :
    (flavorComboStep combos lvl).map comboKey
      = combos.flatMap (fun c => lvl.flavors.map (fun f =>
          comboKey c ++ [(some lvl.level, basenameTxt f.source)])) := by
  rw [flavorComboStep, List.map_flatMap]
  congr 1
  funext c
  rw [List.map_map]
  congr 1
  funext f
  show comboKey (c ++ [{ f with level := some lvl.level }]) = _
  rw [comboKey_append]

theorem concat_inj_pair {α : Type} {l₁ l₂ : List α} {x y : α}
    (h : l₁ ++ [x] = l₂ ++ [y]) : l₁ = l₂ ∧ x = y := by
  have hrev := congrArg List.reverse h
  simp only [List.reverse_append, List.reverse_singleton, List.singleton_append,
    List.cons.injEq] at hrev
  exact ⟨by
    have := congrArg List.reverse hrev.2
    simpa using this, hrev.1⟩

theorem step_key_nodup {combos : List (List RuleData)} {lvl : FlavorLevel}
    (hn : (combos.map comboKey).Nodup)
    (hfn : (lvl.flavors.map (fun f => basenameTxt f.source)).Nodup) :
    ((flavorComboStep combos lvl).map comboKey).Nodup := by
  rw [flavorComboStep_map_comboKey]
  rw [List.nodup_flatMap]
  constructor
  · intro c _
    have : lvl.flavors.map (fun f => comboKey c ++ [(some lvl.level, basenameTxt f.source)])
        = (lvl.flavors.map (fun f => basenameTxt f.source)).map
            (fun b => comboKey c ++ [(some lvl.level, b)]) := by
      rw [List.map_map]
      rfl
    rw [this]
    refine hfn.map ?_
    intro b₁ b₂ hb
    have := (concat_inj_pair hb).2
    exact (Prod.ext_iff.mp this).2
  · have hpw : combos.Pairwise (fun c₁ c₂ => comboKey c₁ ≠ comboKey c₂) := by
      rw [List.Nodup, List.pairwise_map] at hn
      exact hn
    refine hpw.imp ?_
    intro c₁ c₂ hne
    intro x hx₁ hx₂
    rcases List.mem_map.mp hx₁ with ⟨f₁, _, rfl⟩
    rcases List.mem_map.mp hx₂ with ⟨f₂, _, heq⟩
    exact hne (concat_inj_pair heq).1.symm

theorem combos_key_nodup : ∀ (L : List FlavorLevel) (init : List (List RuleData)),
    (init.map comboKey).Nodup →
    (∀ lvl ∈ L, (lvl.flavors.map (fun f => basenameTxt f.source)).Nodup) →
    ((L.foldl flavorComboStep init).map comboKey).Nodup := by
  intro L
  induction L with
  | nil => intro init h _; exact h
  | cons lvl L ih =>
    intro init h hL
    rw [List.foldl_cons]
    exact ih (flavorComboStep init lvl)
      (step_key_nodup h (hL lvl (List.mem_cons_self lvl L)))
      (fun l hl => hL l (List.mem_cons_of_mem lvl hl))

theorem combos_key_free : ∀ (L : List FlavorLevel) (init : List (List RuleData)),
    (∀ c ∈ init, ∀ e ∈ comboKey c, '_' ∉ e.2.data) →
    (∀ lvl ∈ L, ∀ f ∈ lvl.flavors, '_' ∉ (basenameTxt f.source).data) →
    ∀ c ∈ L.foldl flavorComboStep init, ∀ e ∈ comboKey c, '_' ∉ e.2.data := by
  intro L
  induction L with
  | nil => intro init h _; exact h
  | cons lvl L ih =>
    intro init h hL
    rw [List.foldl_cons]
    refine ih (flavorComboStep init lvl) ?_
      (fun l hl => hL l (List.mem_cons_of_mem lvl hl))
    intro c hc e he
    rcases List.mem_flatMap.mp hc with ⟨c₀, hc₀, hmem⟩
    rcases List.mem_map.mp hmem with ⟨f, hf, rfl⟩
    rw [comboKey_append] at he
    rcases List.mem_append.mp he with he | he
    · exact h c₀ hc₀ e he
    · rcases List.mem_singleton.mp he with rfl
      exact hL lvl (List.mem_cons_self lvl L) f hf

theorem combos_level : ∀ (L : List FlavorLevel) (init : List (List RuleData))
    (base : List (Option Nat)),
    (∀ c ∈ init, c.map (fun f => f.level) = base) →
    ∀ c ∈ L.foldl flavorComboStep init,
      c.map (fun f => f.level) = base ++ L.map (fun l => some l.level) := by
  intro L
  induction L with
  | nil => intro init base h c hc; rw [List.map_nil, List.append_nil]; exact h c hc
  | cons lvl L ih =>
    intro init base h c hc
    rw [List.foldl_cons] at hc
    have hstep : ∀ c ∈ flavorComboStep init lvl,
        c.map (fun f => f.level) = base ++ [some lvl.level] := by
      intro c' hc'
      rcases List.mem_flatMap.mp hc' with ⟨c₀, hc₀, hmem⟩
      rcases List.mem_map.mp hmem with ⟨f, _, rfl⟩
      rw [List.map_append, h c₀ hc₀]
      rfl
    have := ih (flavorComboStep init lvl) (base ++ [some lvl.level]) hstep c hc
    rw [this, List.map_cons, List.append_assoc]
    rfl


theorem genCombos_cases (fl : List FlavorLevel) :
    generateFlavorCombinations fl = [[]]
    ∨ generateFlavorCombinations fl = (sortByJs levelLe fl).foldl flavorComboStep [[]] := by
  rw [generateFlavorCombinations]
  by_cases h0 : fl = []
  · rw [if_pos h0]; exact Or.inl rfl
  · rw [if_neg h0]
    dsimp only
    by_cases hc : (sortByJs levelLe fl).foldl flavorComboStep [[]] = []
    · rw [if_pos hc]; exact Or.inl rfl
    · rw [if_neg hc]; exact Or.inr rfl

theorem genCombos_key_nodup (fl : List FlavorLevel)
    (hfn : ∀ lvl ∈ fl, (lvl.flavors.map (fun f => basenameTxt f.source)).Nodup) :
    ((generateFlavorCombinations fl).map comboKey).Nodup := by
  rcases genCombos_cases fl with h | h
  · rw [h]; simp [comboKey]
  · rw [h]
    refine combos_key_nodup (sortByJs levelLe fl) [[]] (by simp [comboKey]) ?_
    intro lvl hl
    exact hfn lvl ((sortByJs_perm levelLe fl).mem_iff.mp hl)

theorem genCombos_key_free (fl : List FlavorLevel)
    (hff : ∀ lvl ∈ fl, ∀ f ∈ lvl.flavors, '_' ∉ (basenameTxt f.source).data) :
    ∀ c ∈ generateFlavorCombinations fl, ∀ e ∈ comboKey c, '_' ∉ e.2.data := by
  rcases genCombos_cases fl with h | h
  · rw [h]
    intro c hc e he
    rcases List.mem_singleton.mp hc with rfl
    simp [comboKey] at he
  · rw [h]
    refine combos_key_free (sortByJs levelLe fl) [[]] ?_ ?_
    · intro c hc e he
      rcases List.mem_singleton.mp hc with rfl
      simp [comboKey] at he
    · intro lvl hl
      exact hff lvl ((sortByJs_perm levelLe fl).mem_iff.mp hl)

theorem genCombos_level_eq (fl : List FlavorLevel) :
    ∀ c ∈ generateFlavorCombinations fl,
      c = [] ∨ c.map (fun f => f.level)
        = (sortByJs levelLe fl).map (fun l => some l.level) := by
  rcases genCombos_cases fl with h | h
  · rw [h]
    intro c hc
    rcases List.mem_singleton.mp hc with rfl
    exact Or.inl rfl
  · rw [h]
    intro c hc
    refine Or.inr ?_
    have := combos_level (sortByJs levelLe fl) [[]] [] ?_ c hc
    · rw [this, List.nil_append]
    · intro c₀ hc₀
      rcases List.mem_singleton.mp hc₀ with rfl
      rfl

theorem levels_sorted (fl : List FlavorLevel) :
    (sortByJs levelLe fl).Pairwise (fun a b => a.level ≤ b.level) := by
  have hT : ∀ a b : FlavorLevel, levelLe a b = true → a.level ≤ b.level :=
    fun a b h => of_decide_eq_true h
  have hF : ∀ a b : FlavorLevel, levelLe a b = false → b.level ≤ a.level :=
    fun a b h => le_of_not_le (of_decide_eq_false h)
  have hTr : ∀ a b c : FlavorLevel, a.level ≤ b.level → b.level ≤ c.level
      → a.level ≤ c.level := fun _ _ _ h₁ h₂ => le_trans h₁ h₂
  exact sortByJs_pairwise hT hF hTr fl

theorem combos_filename_nodup (r : RuleData) (fl : List FlavorLevel)
    (hr : '_' ∉ (ruleBaseName r).data)
    (hfn : ∀ lvl ∈ fl, (lvl.flavors.map (fun f => basenameTxt f.source)).Nodup)
    (hff : ∀ lvl ∈ fl, ∀ f ∈ lvl.flavors, '_' ∉ (basenameTxt f.source).data) :
    ((generateFlavorCombinations fl).map (fun c => permutationFilename r c)).Nodup := by
  have hkeys := genCombos_key_nodup fl hfn
  have hfree := genCombos_key_free fl hff
  rw [List.Nodup, List.pairwise_map]
  have hpw : (generateFlavorCombinations fl).Pairwise
      (fun c₁ c₂ => comboKey c₁ ≠ comboKey c₂) := by
    rw [List.Nodup, List.pairwise_map] at hkeys
    exact hkeys
  refine hpw.imp_of_mem ?_
  intro c₁ c₂ h₁ h₂ hne heq
  exact hne (filename_inj hr hr (hfree _ h₁) (hfree _ h₂) heq).2

theorem perm_filenames_flatMap (cr : RuleData) (rules : List RuleData)
    (fl : List FlavorLevel) (now : String) :
    (generateRulesPermutations cr rules fl now).map Prod.fst
      = (rulesToProcess rules).flatMap (fun r =>
          (generateFlavorCombinations fl).map (fun c => permutationFilename r c)) := by
  rw [generateRulesPermutations, List.map_flatMap]
  congr 1
  funext r
  rw [List.map_map]
  rfl

theorem perm_filenames_nodup (cr : RuleData) (rules : List RuleData)
    (fl : List FlavorLevel) (now : String)
    (hrb : ((rulesToProcess rules).map ruleBaseName).Nodup)
    (hrbf : ∀ r ∈ rulesToProcess rules, '_' ∉ (ruleBaseName r).data)
    (hfn : ∀ lvl ∈ fl, (lvl.flavors.map (fun f => basenameTxt f.source)).Nodup)
    (hff : ∀ lvl ∈ fl, ∀ f ∈ lvl.flavors, '_' ∉ (basenameTxt f.source).data) :
    ((generateRulesPermutations cr rules fl now).map Prod.fst).Nodup := by
  rw [perm_filenames_flatMap, List.nodup_flatMap]
  constructor
  · intro r hr
    exact combos_filename_nodup r fl (hrbf r hr) hfn hff
  · have hpw : (rulesToProcess rules).Pairwise
        (fun r₁ r₂ => ruleBaseName r₁ ≠ ruleBaseName r₂) := by
      rw [List.Nodup, List.pairwise_map] at hrb
      exact hrb
    refine hpw.imp_of_mem ?_
    intro r₁ r₂ h₁ h₂ hne
    intro x hx₁ hx₂
    rcases List.mem_map.mp hx₁ with ⟨c₁, hc₁, rfl⟩
    rcases List.mem_map.mp hx₂ with ⟨c₂, hc₂, heq⟩
    have hfree := genCombos_key_free fl hff
    exact hne ((filename_inj (hrbf r₂ h₂) (hrbf r₁ h₁)
      (hfree _ hc₂) (hfree _ hc₁) heq).1.symm)


theorem jsFB_append (xs ys : List (Option String)) :
    jsFilterBoolean (xs ++ ys) = jsFilterBoolean xs ++ jsFilterBoolean ys := by
  simp [jsFilterBoolean, List.filterMap_append, List.filter_append]

theorem beq_empty_false {s : String} (h : s.data ≠ []) : (s == "") = false := by
  cases hb : (s == "")
  · rfl
  · exact absurd (congrArg String.data (eq_of_beq hb)) h

theorem jsFB_cons_some_ne {s : String} (h : s.data ≠ []) (xs : List (Option String)) :
    jsFilterBoolean (some s :: xs) = s :: jsFilterBoolean xs := by
  simp [jsFilterBoolean, List.filterMap_cons, List.filter_cons, beq_empty_false h]

theorem strJoin_append_one (sep x : String) :
    ∀ ts : List String, ts ≠ [] →
      strJoin sep (ts ++ [x]) = strJoin sep ts ++ sep ++ x := by
  intro ts
  induction ts with
  | nil => intro h; exact absurd rfl h
  | cons t us ih =>
    intro _
    cases us with
    | nil => rfl
    | cons u vs =>
      show strJoin sep (t :: ((u :: vs) ++ [x])) = _
      show t ++ sep ++ strJoin sep ((u :: vs) ++ [x]) = _
      rw [ih (by simp)]
      show _ = (t ++ sep ++ strJoin sep (u :: vs)) ++ sep ++ x
      simp [String.append_assoc]

theorem permutationSources_timestamp (cr r : RuleData) (c : List RuleData) :
    ∃ P : String, (∀ now, permutationSources cr r c now = P ++ now) ∧ P.data ≠ [] := by
  refine ⟨(strJoin "\n" (jsFilterBoolean ([some "// Generated permutation:",
      some ("// Common rules: " ++ cr.source),
      if r.source ≠ "none" then some ("// Rule: " ++ r.source) else none]
      ++ c.map (fun flavor =>
        some ("// Flavor L" ++ levelToString flavor.level ++ ": " ++ flavor.source))))
      ++ "\n") ++ "// Generated at: ", ?_, ?_⟩
  · intro now
    rw [permutationSources]
    rw [show ([some "// Generated permutation:",
        some ("// Common rules: " ++ cr.source),
        if r.source ≠ "none" then some ("// Rule: " ++ r.source) else none]
        ++ c.map (fun flavor =>
          some ("// Flavor L" ++ levelToString flavor.level ++ ": " ++ flavor.source))
        ++ [some ("// Generated at: " ++ now), some ""])
      = ([some "// Generated permutation:",
        some ("// Common rules: " ++ cr.source),
        if r.source ≠ "none" then some ("// Rule: " ++ r.source) else none]
        ++ c.map (fun flavor =>
          some ("// Flavor L" ++ levelToString flavor.level ++ ": " ++ flavor.source)))
        ++ [some ("// Generated at: " ++ now), some ""] from by
        simp [List.append_assoc]]
    rw [jsFB_append]
    have hlast : jsFilterBoolean [some ("// Generated at: " ++ now), some ""]
        = ["// Generated at: " ++ now] := by
      rw [jsFB_cons_some_ne (by rw [strData_append]; simp)]
      rfl
    rw [hlast]
    rw [strJoin_append_one _ _ _ ?hne]
    case hne =>
      rw [jsFB_append, jsFB_cons_some_ne (by decide)]
      simp
    simp only [← String.append_assoc]
  · rw [strData_append]
    simp

theorem permutationContent_timestamp (cr r : RuleData) (c : List RuleData) :
    ∃ pre suf : String, ∀ now,
      permutationContent cr r c now = pre ++ now ++ suf := by
  rcases permutationSources_timestamp cr r c with ⟨P, hP, hPne⟩
  have hsplit : ∀ now, permutationContent cr r c now
      = strJoin "\n\n" ((P ++ now) :: jsFilterBoolean
          ([if r.source ≠ "none" then some ("// Rule from: " ++ r.source) else none,
            if r.source ≠ "none" then some r.content else none]
          ++ c.flatMap (fun flavor =>
            [some ("// Flavor L" ++ levelToString flavor.level ++ " from: "
              ++ flavor.source), some flavor.content]))) := by
    intro now
    rw [permutationContent, hP now, List.cons_append]
    rw [jsFB_cons_some_ne (by rw [strData_append]; intro hx; exact hPne (by
      rcases List.append_eq_nil.mp hx with ⟨h1, _⟩; exact h1))]
  cases hrest : jsFilterBoolean
      ([if r.source ≠ "none" then some ("// Rule from: " ++ r.source) else none,
        if r.source ≠ "none" then some r.content else none]
      ++ c.flatMap (fun flavor =>
        [some ("// Flavor L" ++ levelToString flavor.level ++ " from: "
          ++ flavor.source), some flavor.content])) with
  | nil =>
    refine ⟨P, "", ?_⟩
    intro now
    rw [hsplit now, hrest]
    show P ++ now = P ++ now ++ ""
    rw [String.append_empty]
  | cons t ts =>
    refine ⟨P, "\n\n" ++ strJoin "\n\n" (t :: ts), ?_⟩
    intro now
    rw [hsplit now, hrest]
    show (P ++ now) ++ "\n\n" ++ strJoin "\n\n" (t :: ts) = _
    simp [String.append_assoc]


/-- C4 (corrected, amended): the permutation expansion is deterministic —
the output filenames do not depend on the run timestamp, every filename
follows the spec formula (rule basename or base, then one token per
selected flavor in ascending level order, underscore-joined, with the
.txt extension), and each document content depends on the timestamp only
through the single generated-at provenance line; the filenames are
pairwise unique provided the rule basenames are pairwise distinct and all
rule and flavor basenames are free of underscores — without that proviso
distinct permutations can collide on one filename, because the
underscore-joined encoding is ambiguous (see the counterexample). -/
theorem claim_C4_unique_filenames (commonRules : RuleData) (rules : List RuleData)
    (fl : List FlavorLevel)
    (hrb : ((rulesToProcess rules).map ruleBaseName).Nodup)
    (hrbf : ∀ r ∈ rulesToProcess rules, '_' ∉ (ruleBaseName r).data)
    (hfn : ∀ lvl ∈ fl, (lvl.flavors.map (fun f => basenameTxt f.source)).Nodup)
    (hff : ∀ lvl ∈ fl, ∀ f ∈ lvl.flavors, '_' ∉ (basenameTxt f.source).data) :
    (∀ now now' : String,
      (generateRulesPermutations commonRules rules fl now).map Prod.fst
        = (generateRulesPermutations commonRules rules fl now').map Prod.fst)
    ∧ (∀ now : String,
      (generateRulesPermutations commonRules rules fl now).map Prod.fst
        = (rulesToProcess rules).flatMap (fun r =>
            (generateFlavorCombinations fl).map (fun c => specFilename r c)))
    ∧ (sortByJs levelLe fl).Pairwise (fun a b => a.level ≤ b.level)
    ∧ (∀ c ∈ generateFlavorCombinations fl,
        c = [] ∨ c.map (fun f => f.level)
          = (sortByJs levelLe fl).map (fun l => some l.level))
    ∧ (∀ r ∈ rulesToProcess rules, ∀ c ∈ generateFlavorCombinations fl,
        ∃ pre suf : String, ∀ now : String,
          permutationContent commonRules r c now = pre ++ now ++ suf)
    ∧ (∀ now : String,
        ((generateRulesPermutations commonRules rules fl now).map Prod.fst).Nodup) := by
  refine ⟨?_, ?_, levels_sorted fl, genCombos_level_eq fl, ?_, ?_⟩
  · intro now now'
    rw [perm_filenames_flatMap, perm_filenames_flatMap]
  · intro now
    rw [perm_filenames_flatMap]
    simp only [filename_eq_spec]
  · intro r _ c _
    exact permutationContent_timestamp commonRules r c
  · intro now
    exact perm_filenames_nodup commonRules rules fl now hrb hrbf hfn hff

/-- Witness for C4 (amended): one real rule-less run with a single flavor
level, underscore-free basenames. -/
theorem claim_C4_unique_filenames_witness :
    (((rulesToProcess ([] : List RuleData)).map ruleBaseName).Nodup
    ∧ (∀ r ∈ rulesToProcess ([] : List RuleData), '_' ∉ (ruleBaseName r).data)
    ∧ (∀ lvl ∈ [FlavorLevel.mk 1 [⟨"A", "d1/a.txt", none⟩]],
        (lvl.flavors.map (fun f => basenameTxt f.source)).Nodup)
    ∧ (∀ lvl ∈ [FlavorLevel.mk 1 [⟨"A", "d1/a.txt", none⟩]],
        ∀ f ∈ lvl.flavors, '_' ∉ (basenameTxt f.source).data))
    ∧ ((∀ now now' : String,
      (generateRulesPermutations ⟨"C", "c.txt", none⟩ []
        [FlavorLevel.mk 1 [⟨"A", "d1/a.txt", none⟩]] now).map Prod.fst
        = (generateRulesPermutations ⟨"C", "c.txt", none⟩ []
            [FlavorLevel.mk 1 [⟨"A", "d1/a.txt", none⟩]] now').map Prod.fst)
    ∧ (∀ now : String,
      (generateRulesPermutations ⟨"C", "c.txt", none⟩ []
        [FlavorLevel.mk 1 [⟨"A", "d1/a.txt", none⟩]] now).map Prod.fst
        = (rulesToProcess ([] : List RuleData)).flatMap (fun r =>
            (generateFlavorCombinations [FlavorLevel.mk 1 [⟨"A", "d1/a.txt", none⟩]]).map
              (fun c => specFilename r c)))
    ∧ (sortByJs levelLe [FlavorLevel.mk 1 [⟨"A", "d1/a.txt", none⟩]]).Pairwise
        (fun a b => a.level ≤ b.level)
    ∧ (∀ c ∈ generateFlavorCombinations [FlavorLevel.mk 1 [⟨"A", "d1/a.txt", none⟩]],
        c = [] ∨ c.map (fun f => f.level)
          = (sortByJs levelLe [FlavorLevel.mk 1 [⟨"A", "d1/a.txt", none⟩]]).map
              (fun l => some l.level))
    ∧ (∀ r ∈ rulesToProcess ([] : List RuleData),
        ∀ c ∈ generateFlavorCombinations [FlavorLevel.mk 1 [⟨"A", "d1/a.txt", none⟩]],
        ∃ pre suf : String, ∀ now : String,
          permutationContent ⟨"C", "c.txt", none⟩ r c now = pre ++ now ++ suf)
    ∧ (∀ now : String,
        ((generateRulesPermutations ⟨"C", "c.txt", none⟩ []
          [FlavorLevel.mk 1 [⟨"A", "d1/a.txt", none⟩]] now).map Prod.fst).Nodup)) :=
  ⟨⟨by decide, by decide, by decide, by decide⟩,
   claim_C4_unique_filenames ⟨"C", "c.txt", none⟩ []
     [FlavorLevel.mk 1 [⟨"A", "d1/a.txt", none⟩]]
     (by decide) (by decide) (by decide) (by decide)⟩

/-- C4 counterexample: two flavor basenames that themselves contain
level-token-shaped underscore runs make two distinct permutations collide
on the filename base_L1_x_L2_y_L2_y.txt, refuting unconditional pairwise
uniqueness of the output filenames. -/
theorem claim_C4_counterexample :
    ((generateRulesPermutations ⟨"C", "c.txt", none⟩ []
        [FlavorLevel.mk 1 [⟨"A", "l1/x.txt", none⟩, ⟨"AB", "l1/x_L2_y.txt", none⟩],
         FlavorLevel.mk 2 [⟨"B", "l2/y.txt", none⟩, ⟨"BB", "l2/y_L2_y.txt", none⟩]]
        "T").map Prod.fst
      = ["base_L1_x_L2_y.txt", "base_L1_x_L2_y_L2_y.txt",
         "base_L1_x_L2_y_L2_y.txt", "base_L1_x_L2_y_L2_y_L2_y.txt"])
    ∧ ¬ ((generateRulesPermutations ⟨"C", "c.txt", none⟩ []
        [FlavorLevel.mk 1 [⟨"A", "l1/x.txt", none⟩, ⟨"AB", "l1/x_L2_y.txt", none⟩],
         FlavorLevel.mk 2 [⟨"B", "l2/y.txt", none⟩, ⟨"BB", "l2/y_L2_y.txt", none⟩]]
        "T").map Prod.fst).Nodup := by
  constructor
  · decide
  · decide

end Vibotron
